import Mathlib

/-!
Verification of the ethereum-blockchain-explorer indexing engine.

Strings from the Python source (`str` / `bytes` values) are embedded as
`List Char`; the NUL field separator used by `src/coder.py` is the
character with code 0.  All record types, the codec, the per-batch
address/token write pipeline of `src/updater/database_updater.py`, the
balance updater of `src/updater/balance_updater.py`, the retry wrappers
of `src/decorator.py` and the query paths of `src/database_gatherer.py`
are translated below, and the spec's claims are settled against them.
-/

abbrev Str := List Char

def nul : Char := Char.ofNat 0

/-! ### Python `str.split(sep)` on `List Char` -/

def splitSep (sep : Char) : Str → List Str
  | [] => [[]]
  | c :: cs =>
    if c = sep then [] :: splitSep sep cs
    else
      match splitSep sep cs with
      | f :: rest => (c :: f) :: rest
      | [] => [[c]]

/-! ### Decimal printing and parsing of naturals (Python `str(n)` / `int(s)`) -/

def digitCh (d : Nat) : Char := Char.ofNat (48 + d)

def natStrAux : Nat → Nat → Str
  | 0, _ => []
  | _ + 1, 0 => []
  | fuel + 1, n + 1 => natStrAux fuel ((n + 1) / 10) ++ [digitCh ((n + 1) % 10)]

/-- Decimal representation of a natural number, as produced by Python `str`. -/
def natStr (n : Nat) : Str := if n = 0 then [digitCh 0] else natStrAux n n

def parseNatAux : Str → Nat → Option Nat
  | [], acc => some acc
  | c :: cs, acc =>
    if 48 ≤ c.toNat ∧ c.toNat ≤ 57 then parseNatAux cs (acc * 10 + (c.toNat - 48))
    else none

/-- Parse a decimal digit string, as Python `int` does on the canonical
strings this system writes; non-digit input fails. -/
def parseNat : Str → Option Nat
  | [] => none
  | c :: cs => parseNatAux (c :: cs) 0

/-! ### Record types of `src/coder.py` (field order follows the encoders) -/

/-- Address record as stored under `address-<addr>` (see `coder.encode_address`). -/
structure AddrRec where
  balance : Str
  code : Str
  inputTxIndex : Nat
  outputTxIndex : Nat
  minedIndex : Nat
  tokenContract : Str
  inputTokenTxIndex : Nat
  outputTokenTxIndex : Nat
  inputIntTxIndex : Nat
  outputIntTxIndex : Nat
deriving DecidableEq, Repr

/-- Block record as stored under `block-<number>` (see `coder.encode_block`). -/
structure EthBlock where
  hash : Str
  parentHash : Str
  nonce : Str
  logsBloom : Str
  miner : Str
  difficulty : Str
  totalDifficulty : Str
  extraData : Str
  size : Str
  gasLimit : Str
  gasUsed : Str
  timestamp : Str
  sha3Uncles : Str
  transactions : Str
deriving DecidableEq, Repr

/-- Token record as stored under `token-<address>` (see `coder.encode_token`). -/
structure TokenRec where
  symbol : Str
  name : Str
  decimals : Str
  totalSupply : Str
  type : Str
  txIndex : Nat
deriving DecidableEq, Repr

/-- Token-transfer record stored under `token-tx-<index>` (see `coder.encode_token_tx`). -/
structure TokenTxRec where
  tokenAddress : Str
  addressFrom : Str
  addressTo : Str
  value : Str
  transactionHash : Str
  timestamp : Str
deriving DecidableEq, Repr

/-- Internal-transaction record stored under `internal-tx-<index>`
(see `coder.encode_internal_tx`). -/
structure IntTxRec where
  fromAddr : Str
  toAddr : Str
  value : Str
  input : Str
  output : Str
  traceType : Str
  callType : Str
  rewardType : Str
  gas : Str
  gasUsed : Str
  transactionHash : Str
  timestamp : Str
  error : Str
deriving DecidableEq, Repr

/-- Transaction dictionary as handed to `coder.encode_transaction` by the
updater: `from`/`to` may be `None`, `logs` is the already-flattened log
string, the `hash` key is not encoded (it is commented out in the source). -/
structure ETx where
  blockHash : Str
  blockNumber : Str
  fromAddr : Option Str
  toAddr : Option Str
  gas : Str
  gasPrice : Str
  input : Str
  nonce : Str
  value : Str
  cumulativeGasUsed : Str
  gasUsed : Str
  logs : Str
  contractAddress : Str
  timestamp : Str
  internalTxIndex : Nat
deriving DecidableEq, Repr

/-- A parsed log entry as produced by `coder.decode_transaction`. -/
structure LogEntry where
  data : Str
  topics : List Str
deriving DecidableEq, Repr

/-- Transaction dictionary as returned by `coder.decode_transaction`:
`from`/`to` are plain strings and `logs` has been re-parsed into a list of
`LogEntry`. -/
structure DecTx where
  blockHash : Str
  blockNumber : Str
  fromAddr : Str
  toAddr : Str
  gas : Str
  gasPrice : Str
  input : Str
  nonce : Str
  value : Str
  cumulativeGasUsed : Str
  gasUsed : Str
  logs : List LogEntry
  contractAddress : Str
  timestamp : Str
  internalTxIndex : Nat
deriving DecidableEq, Repr

/-! ### Encoders (`coder.py`): every field is followed by a NUL separator,
except that `encode_block` does not terminate its last field and
`encode_transaction` writes the literal two characters `/0` (a slip for
`\0`) when `from` or `to` is `None`. -/

def encode_transaction (t : ETx) : Str :=
  t.blockHash ++ nul ::
  (t.blockNumber ++ nul ::
  ((match t.fromAddr with
    | none => [Char.ofNat 47, Char.ofNat 48]
    | some f => f ++ [nul]) ++
  ((match t.toAddr with
    | none => [Char.ofNat 47, Char.ofNat 48]
    | some f => f ++ [nul]) ++
  (t.gas ++ nul ::
  (t.gasPrice ++ nul ::
  (t.input ++ nul ::
  (t.nonce ++ nul ::
  (t.value ++ nul ::
  (t.cumulativeGasUsed ++ nul ::
  (t.gasUsed ++ nul ::
  (t.logs ++ nul ::
  (t.contractAddress ++ nul ::
  (t.timestamp ++ nul ::
  (natStr t.internalTxIndex ++ [nul]))))))))))))))

/-- Log-string parser embedded in `coder.decode_transaction` (lines 72-87):
strip one trailing `|`, split entries on `|`, split each entry on `+`,
and split the topic block on `-` only when the entry has exactly two
`+`-parts. -/
def parseLogs (l : Str) : List LogEntry :=
  let l' := if l ≠ [] ∧ l.getLast? = some (Char.ofNat 124) then l.dropLast else l
  (splitSep (Char.ofNat 124) l').map fun log =>
    match splitSep (Char.ofNat 43) log with
    | [d, t] => ⟨d, splitSep (Char.ofNat 45) t⟩
    | d :: _ => ⟨d, []⟩
    | [] => ⟨[], []⟩

def decode_transaction (raw : Str) : Option DecTx :=
  match splitSep nul raw with
  | blockHash :: blockNumber :: fromAddr :: toAddr :: gas :: gasPrice :: input ::
      nonce :: value :: cumulativeGasUsed :: gasUsed :: logs :: contractAddress ::
      timestamp :: internalTxRaw :: _ =>
    (parseNat internalTxRaw).map fun internalTxIndex =>
      ⟨blockHash, blockNumber, fromAddr, toAddr, gas, gasPrice, input, nonce, value,
       cumulativeGasUsed, gasUsed, parseLogs logs, contractAddress, timestamp,
       internalTxIndex⟩
  | _ => none

def encode_block (b : EthBlock) : Str :=
  b.hash ++ nul ::
  (b.parentHash ++ nul ::
  (b.nonce ++ nul ::
  (b.logsBloom ++ nul ::
  (b.miner ++ nul ::
  (b.difficulty ++ nul ::
  (b.totalDifficulty ++ nul ::
  (b.extraData ++ nul ::
  (b.size ++ nul ::
  (b.gasLimit ++ nul ::
  (b.gasUsed ++ nul ::
  (b.timestamp ++ nul ::
  (b.sha3Uncles ++ nul ::
  b.transactions))))))))))))

def decode_block (raw : Str) : Option EthBlock :=
  match splitSep nul raw with
  | hash :: parentHash :: nonce :: logsBloom :: miner :: difficulty ::
      totalDifficulty :: extraData :: size :: gasLimit :: gasUsed :: timestamp ::
      sha3Uncles :: transactions :: _ =>
    some ⟨hash, parentHash, nonce, logsBloom, miner, difficulty, totalDifficulty,
          extraData, size, gasLimit, gasUsed, timestamp, sha3Uncles, transactions⟩
  | _ => none

def encode_address (a : AddrRec) : Str :=
  a.balance ++ nul ::
  (a.code ++ nul ::
  (natStr a.inputTxIndex ++ nul ::
  (natStr a.outputTxIndex ++ nul ::
  (natStr a.minedIndex ++ nul ::
  (a.tokenContract ++ nul ::
  (natStr a.inputTokenTxIndex ++ nul ::
  (natStr a.outputTokenTxIndex ++ nul ::
  (natStr a.inputIntTxIndex ++ nul ::
  (natStr a.outputIntTxIndex ++ [nul])))))))))

def decode_address (raw : Str) : Option AddrRec :=
  match splitSep nul raw with
  | balance :: code :: i2 :: i3 :: i4 :: tokenContract :: i6 :: i7 :: i8 :: i9 :: _ => do
    let inputTxIndex ← parseNat i2
    let outputTxIndex ← parseNat i3
    let minedIndex ← parseNat i4
    let inputTokenTxIndex ← parseNat i6
    let outputTokenTxIndex ← parseNat i7
    let inputIntTxIndex ← parseNat i8
    let outputIntTxIndex ← parseNat i9
    pure ⟨balance, code, inputTxIndex, outputTxIndex, minedIndex, tokenContract,
          inputTokenTxIndex, outputTokenTxIndex, inputIntTxIndex, outputIntTxIndex⟩
  | _ => none

def encode_token (t : TokenRec) : Str :=
  t.symbol ++ nul ::
  (t.name ++ nul ::
  (t.decimals ++ nul ::
  (t.totalSupply ++ nul ::
  (t.type ++ nul ::
  (natStr t.txIndex ++ [nul])))))

def decode_token (raw : Str) : Option TokenRec :=
  match splitSep nul raw with
  | symbol :: name :: decimals :: totalSupply :: type :: txRaw :: _ =>
    (parseNat txRaw).map fun txIndex =>
      ⟨symbol, name, decimals, totalSupply, type, txIndex⟩
  | _ => none

def encode_token_tx (t : TokenTxRec) : Str :=
  t.tokenAddress ++ nul ::
  (t.addressFrom ++ nul ::
  (t.addressTo ++ nul ::
  (t.value ++ nul ::
  (t.transactionHash ++ nul ::
  (t.timestamp ++ [nul])))))

def decode_token_tx (raw : Str) : Option TokenTxRec :=
  match splitSep nul raw with
  | tokenAddress :: addressFrom :: addressTo :: value :: transactionHash ::
      timestamp :: _ =>
    some ⟨tokenAddress, addressFrom, addressTo, value, transactionHash, timestamp⟩
  | _ => none

def encode_internal_tx (t : IntTxRec) : Str :=
  t.fromAddr ++ nul ::
  (t.toAddr ++ nul ::
  (t.value ++ nul ::
  (t.input ++ nul ::
  (t.output ++ nul ::
  (t.traceType ++ nul ::
  (t.callType ++ nul ::
  (t.rewardType ++ nul ::
  (t.gas ++ nul ::
  (t.gasUsed ++ nul ::
  (t.transactionHash ++ nul ::
  (t.timestamp ++ nul ::
  (t.error ++ [nul]))))))))))))

def decode_internal_tx (raw : Str) : Option IntTxRec :=
  match splitSep nul raw with
  | fromAddr :: toAddr :: value :: input :: output :: traceType :: callType ::
      rewardType :: gas :: gasUsed :: transactionHash :: timestamp :: error :: _ =>
    some ⟨fromAddr, toAddr, value, input, output, traceType, callType, rewardType,
          gas, gasUsed, transactionHash, timestamp, error⟩
  | _ => none

/-! ### Well-formedness: chain-sourced fields never contain the NUL separator
(spec section 4.1: fields are restricted to `[0-9a-fx]`). -/

def WFaddrRec (a : AddrRec) : Prop :=
  nul ∉ a.balance ∧ nul ∉ a.code ∧ nul ∉ a.tokenContract

def WFblock (b : EthBlock) : Prop :=
  nul ∉ b.hash ∧ nul ∉ b.parentHash ∧ nul ∉ b.nonce ∧ nul ∉ b.logsBloom ∧
  nul ∉ b.miner ∧ nul ∉ b.difficulty ∧ nul ∉ b.totalDifficulty ∧
  nul ∉ b.extraData ∧ nul ∉ b.size ∧ nul ∉ b.gasLimit ∧ nul ∉ b.gasUsed ∧
  nul ∉ b.timestamp ∧ nul ∉ b.sha3Uncles ∧ nul ∉ b.transactions

def WFtoken (t : TokenRec) : Prop :=
  nul ∉ t.symbol ∧ nul ∉ t.name ∧ nul ∉ t.decimals ∧ nul ∉ t.totalSupply ∧
  nul ∉ t.type

def WFtokenTx (t : TokenTxRec) : Prop :=
  nul ∉ t.tokenAddress ∧ nul ∉ t.addressFrom ∧ nul ∉ t.addressTo ∧
  nul ∉ t.value ∧ nul ∉ t.transactionHash ∧ nul ∉ t.timestamp

def WFintTx (t : IntTxRec) : Prop :=
  nul ∉ t.fromAddr ∧ nul ∉ t.toAddr ∧ nul ∉ t.value ∧ nul ∉ t.input ∧
  nul ∉ t.output ∧ nul ∉ t.traceType ∧ nul ∉ t.callType ∧ nul ∉ t.rewardType ∧
  nul ∉ t.gas ∧ nul ∉ t.gasUsed ∧ nul ∉ t.transactionHash ∧
  nul ∉ t.timestamp ∧ nul ∉ t.error

/-! ### Retry wrappers of `src/decorator.py` (`db_get_wrapper` / `db_iter_wrapper`)

Both wrappers run the same loop: try the read; on a `RocksIOError` first
raise if the counter has reached `RETRY_LIMIT`, then sleep and increment the
counter only when the message contains `No such file or directory`.  The
sequence of underlying outcomes is an oracle `Nat → FetchOutcome`; `fuel`
counts loop iterations, and `spinning` means the loop is still running after
`fuel` iterations. -/

def RETRY_LIMIT : Nat := 10

inductive FetchOutcome (α : Type) where
  | ok (v : α)
  | errMissing
  | errOther
deriving DecidableEq

inductive FetchResult (α : Type) where
  | val (v : α)
  | raised
  | spinning
deriving DecidableEq

def retryLoop {α : Type} (att : Nat → FetchOutcome α) : Nat → Nat → Nat → FetchResult α
  | 0, _, _ => .spinning
  | fuel + 1, i, counter =>
    match att i with
    | .ok v => .val v
    | .errMissing =>
      if RETRY_LIMIT ≤ counter then .raised
      else retryLoop att fuel (i + 1) (counter + 1)
    | .errOther =>
      if RETRY_LIMIT ≤ counter then .raised
      else retryLoop att fuel (i + 1) counter

/-! ### Log-string construction in `gather_receipts`
(`src/updater/database_updater.py` lines 311-332). -/

def pipeCh : Char := Char.ofNat 124

def plusCh : Char := Char.ofNat 43

def dashCh : Char := Char.ofNat 45

def commaCh : Char := Char.ofNat 44

/-- One iteration of the per-row logs loop: the accumulated value is reset,
rebuilt as `data + '+' + topic + '-' + …`, stripped of a trailing `-` and
then of a trailing `+`, and finally the loop variable `topic` (still bound to
the last topic) plus `|` is appended once more. -/
def processLogRow (d topics : Str) : Str :=
  let s1 := (splitSep commaCh topics).foldl (fun s t => s ++ t ++ [dashCh]) (d ++ [plusCh])
  let s2 := if s1 ≠ [] ∧ s1.getLast? = some dashCh then s1.dropLast else s1
  let s3 := if s2 ≠ [] ∧ s2.getLast? = some plusCh then s2.dropLast else s2
  s3 ++ ((splitSep commaCh topics).getLast?.getD []) ++ [pipeCh]

/-- The whole logs pass for one transaction: each CSV row overwrites the
previous value of the `logs` field (the accumulator is ignored), so only the
last row survives. -/
def gatherReceiptsLogs (rows : List (Str × Str)) : Str :=
  rows.foldl (fun _ r => processLogRow r.1 r.2) []

def joinSep (sep : Char) : List Str → Str
  | [] => []
  | [x] => x
  | x :: xs => x ++ sep :: joinSep sep xs

/-- Modelled from the spec (section 3, `logs` attribute): the intended
encoding `data+topic-topic-…|data+…`, with the outer `|` separating log
entries and the inner `-` separating topics; defined from the spec's words
only to compare against what `gather_receipts` actually produces. -/
def specLogsFormat (rows : List (Str × Str)) : Str :=
  joinSep pipeCh
    (rows.map fun r => r.1 ++ plusCh :: joinSep dashCh (splitSep commaCh r.2))

/-! ### Balance phase (`src/updater/balance_updater.py`, `_update_db_balances`)

The store is a map from full byte keys to raw record bytes.  For every
`address: balance` pair the existing record is fetched under
`address-<addr>`; a missing record is skipped, a present one is decoded, its
`balance` field replaced, and the re-encoded record is queued in the write
batch.  A record that fails to decode raises, which aborts the whole update
(`none`). -/

def updateDbBalances (store : Str → Option Str) : List (Str × Str) → Option (List (Str × Str))
  | [] => some []
  | (a, b) :: rest =>
    match store (("address-").data ++ a) with
    | none => updateDbBalances store rest
    | some raw =>
      match decode_address raw with
      | none => none
      | some r0 =>
        (updateDbBalances store rest).map
          (fun tail => (("address-").data ++ a, encode_address { r0 with balance := b }) :: tail)

/-- Committing a write batch: later writes win, keys not written are
unchanged. -/
def applyBatch (store : Str → Option Str) (batch : List (Str × Str)) : Str → Option Str :=
  batch.foldl (fun s kv => fun k => if k = kv.1 then some kv.2 else s k) store

/-! ### Per-batch address pipeline
(`fill_addresses` / `fill_addrs_token_txs` / `fill_addrs_int_txs` /
`update_bulk_db` in `src/updater/database_updater.py`)

Associated-data keys `associated-data-<addr>-<tag>-<n>` are represented
structurally as `(addr, tag, n)` triples; `assocKeyStr` below rebuilds the
literal byte key and is injective for dash-free (hex) addresses, so the
structured store is a faithful image of the flat keyspace. -/

inductive StreamTag where
  | inTx
  | outTx
  | mined
  | inTok
  | outTok
  | inInt
  | outInt
deriving DecidableEq, Repr

/-- Tag component of the associated-data key, as written by the source
(`-i-`, `-o-`, `-b-`, `-ti-`, `-to-`, `-ii-`, `-io-`). -/
def tagStr : StreamTag → Str
  | .inTx => ("i").data
  | .outTx => ("o").data
  | .mined => ("b").data
  | .inTok => ("ti").data
  | .outTok => ("to").data
  | .inInt => ("ii").data
  | .outInt => ("io").data

/-- The flat associated-data key `<addr>-<tag>-<n>` (the constant
`associated-data-` prefix is added by `update_bulk_db`). -/
def assocKeyStr (a : Str) (t : StreamTag) (n : Nat) : Str :=
  a ++ dashCh :: (tagStr t ++ dashCh :: natStr n)

/-- The in-memory dictionary entry built for one address during a batch
(`gather_transactions` / `gather_blocks` / `gather_receipts` /
`fill_addresses_tokens` / `gather_internal_txs` all create this shape). -/
structure AddrData where
  code : Str
  tokenContract : Option Str
  mined : List Str
  newInputTxs : List (Str × Str × Str)
  newOutputTxs : List (Str × Str × Str)
  newInputTokens : List (Nat × Str)
  newOutputTokens : List (Nat × Str)
  newIntInputTxs : List (Nat × Str × Str)
  newIntOutputTxs : List (Nat × Str × Str)
deriving DecidableEq, Repr

/-- The slice of the store the address pipeline touches: decoded Address
records keyed by address, and associated-data entries keyed by
`(addr, tag, index)`. -/
structure IStore where
  addr : Str → Option AddrRec
  assoc : Str → StreamTag → Nat → Option Str

def emptyIStore : IStore := ⟨fun _ => none, fun _ _ _ => none⟩

def counterOf (r : AddrRec) : StreamTag → Nat
  | .inTx => r.inputTxIndex
  | .outTx => r.outputTxIndex
  | .mined => r.minedIndex
  | .inTok => r.inputTokenTxIndex
  | .outTok => r.outputTokenTxIndex
  | .inInt => r.inputIntTxIndex
  | .outInt => r.outputIntTxIndex

/-- Counter value read from the store at the start of the batch: the stored
record's counter, or 0 when the address has no record yet
(`fill_addresses` lines 484-502). -/
def counterStore (st : IStore) (a : Str) (t : StreamTag) : Nat :=
  match st.addr a with
  | some r => counterOf r t
  | none => 0

/-- The values written for one address and one tag, in batch order, exactly
as the source formats them (`str(x[0]) + '-' + str(x[1]) + '-' + str(x[2])`
for transactions and internal transactions, `str(idx) + '-' + str(ts)` for
token transfers, the bare block hash for mined blocks). -/
def deltasFor (d : AddrData) : StreamTag → List Str
  | .inTx => d.newInputTxs.map (fun x => x.1 ++ dashCh :: (x.2.1 ++ dashCh :: x.2.2))
  | .outTx => d.newOutputTxs.map (fun x => x.1 ++ dashCh :: (x.2.1 ++ dashCh :: x.2.2))
  | .mined => d.mined
  | .inTok => d.newInputTokens.map (fun x => natStr x.1 ++ dashCh :: x.2)
  | .outTok => d.newOutputTokens.map (fun x => natStr x.1 ++ dashCh :: x.2)
  | .inInt => d.newIntInputTxs.map (fun x => natStr x.1 ++ dashCh :: (x.2.1 ++ dashCh :: x.2.2))
  | .outInt => d.newIntOutputTxs.map (fun x => natStr x.1 ++ dashCh :: (x.2.1 ++ dashCh :: x.2.2))

abbrev WKey := Str × StreamTag × Nat

/-- The `for x in list: last += 1; write_dict[key(last)] = value(x)` loop:
entries land at indices `last+1, last+2, …`. -/
def tagWritesAux (a : Str) (t : StreamTag) : Nat → List Str → List (WKey × Str)
  | _, [] => []
  | last, d :: ds => ((a, t, last + 1), d) :: tagWritesAux a t (last + 1) ds

/-- All associated-data writes produced for one address in one batch
(tags in source order: the main loop writes i, o, b; `fill_addrs_token_txs`
adds ti, to; `fill_addrs_int_txs` adds ii, io). -/
def addrWrites (st : IStore) (a : Str) (d : AddrData) : List (WKey × Str) :=
  tagWritesAux a .inTx (counterStore st a .inTx) (deltasFor d .inTx) ++
  (tagWritesAux a .outTx (counterStore st a .outTx) (deltasFor d .outTx) ++
  (tagWritesAux a .mined (counterStore st a .mined) (deltasFor d .mined) ++
  (tagWritesAux a .inTok (counterStore st a .inTok) (deltasFor d .inTok) ++
  (tagWritesAux a .outTok (counterStore st a .outTok) (deltasFor d .outTok) ++
  (tagWritesAux a .inInt (counterStore st a .inInt) (deltasFor d .inInt) ++
  tagWritesAux a .outInt (counterStore st a .outInt) (deltasFor d .outInt))))))

def batchWrites (st : IStore) : List (Str × AddrData) → List (WKey × Str)
  | [] => []
  | (a, d) :: rest => addrWrites st a d ++ batchWrites st rest

/-- The re-encoded Address record committed for a batch address:
balance is unconditionally the literal `null`; `code` and `tokenContract`
come from the existing record when there is one, otherwise from the batch
data (with `tokenContract` defaulting to `False`); every counter becomes
the stored counter plus the number of new deltas. -/
def newRecord (st : IStore) (a : Str) (d : AddrData) : AddrRec :=
  { balance := ("null").data
    code :=
      match st.addr a with
      | some r => r.code
      | none => d.code
    tokenContract :=
      match st.addr a with
      | some r => r.tokenContract
      | none => d.tokenContract.getD (("False").data)
    inputTxIndex := counterStore st a .inTx + (deltasFor d .inTx).length
    outputTxIndex := counterStore st a .outTx + (deltasFor d .outTx).length
    minedIndex := counterStore st a .mined + (deltasFor d .mined).length
    inputTokenTxIndex := counterStore st a .inTok + (deltasFor d .inTok).length
    outputTokenTxIndex := counterStore st a .outTok + (deltasFor d .outTok).length
    inputIntTxIndex := counterStore st a .inInt + (deltasFor d .inInt).length
    outputIntTxIndex := counterStore st a .outInt + (deltasFor d .outInt).length }

def findVal : List (WKey × Str) → WKey → Option Str
  | [], _ => none
  | (k, v) :: rest, q => if k = q then some v else findVal rest q

def findAddr : List (Str × AddrData) → Str → Option AddrData
  | [], _ => none
  | (a, d) :: rest, q => if a = q then some d else findAddr rest q

/-- One committed ingest batch (`update_bulk_db`): every batch address gets
its re-encoded record, and every associated-data write lands; everything
else is untouched. -/
def commitBatch (st : IStore) (batch : List (Str × AddrData)) : IStore :=
  { addr := fun a =>
      match findAddr batch a with
      | some d => some (newRecord st a d)
      | none => st.addr a
    assoc := fun a t k =>
      match findVal (batchWrites st batch) (a, t, k) with
      | some v => some v
      | none => st.assoc a t k }

/-- Counter/stream invariant (spec section 8, counter monotonicity): for
every address and tag the associated-data indices present are exactly
`1 .. n` where `n` is the corresponding counter of the stored record
(0 when no record is stored). -/
def StreamInv (st : IStore) : Prop :=
  ∀ a t k, (st.assoc a t k).isSome ↔ (1 ≤ k ∧ k ≤ counterStore st a t)

def optOr (x y : Option Str) : Option Str :=
  match x with
  | some v => some v
  | none => y

/-! ### Token filter (`expand_tokens` and the token part of `update_bulk_db`)

`expand_tokens` walks the batch's token transfers: a transfer whose token
is found in the store keeps the decoded store token (its in-memory
`transactions` list reset), a transfer whose token was parsed in this
batch keeps that token, and any other transfer is dropped without being
assigned a global `token-tx` index.  A store token that fails to decode
raises, aborting the batch. -/

/-- In-memory token dictionary entry: the codec fields plus the
`transactions` list that only exists inside a batch. -/
structure BTok where
  tok : TokenRec
  transactions : List (Nat × Str)
deriving DecidableEq, Repr

def lookupStr {β : Type} : List (Str × β) → Str → Option β
  | [], _ => none
  | (k, v) :: rest, q => if k = q then some v else lookupStr rest q

/-- Python dict assignment `d[k] = v`: replace in place, or append. -/
def insertReplace : List (Str × BTok) → Str → BTok → List (Str × BTok)
  | [], k, v => [(k, v)]
  | (k', v') :: rest, k, v =>
    if k' = k then (k', v) :: rest else (k', v') :: insertReplace rest k v

def lookupNat {β : Type} : List (Nat × β) → Nat → Option β
  | [], _ => none
  | (k, v) :: rest, q => if k = q then some v else lookupNat rest q

/-- The token slice of the store: raw token records under `token-<addr>`
and token-transfer records under `token-tx-<index>`. -/
structure TStore where
  tokenRec : Str → Option Str
  tokenTx : Nat → Option TokenTxRec

def expandTokensAux (st : TStore) (tokens : List (Str × BTok)) :
    List TokenTxRec → List (Str × BTok) → List (Nat × TokenTxRec) → Nat →
    Option (List (Str × BTok) × List (Nat × TokenTxRec) × Nat)
  | [], full, filtered, highest => some (full, filtered, highest)
  | tx :: rest, full, filtered, highest =>
    match st.tokenRec tx.tokenAddress with
    | some raw =>
      match decode_token raw with
      | none => none
      | some dbTok =>
        expandTokensAux st tokens rest
          (insertReplace full tx.tokenAddress ⟨dbTok, []⟩)
          (filtered ++ [(highest + 1, tx)]) (highest + 1)
    | none =>
      match lookupStr tokens tx.tokenAddress with
      | some bt =>
        expandTokensAux st tokens rest
          (insertReplace full tx.tokenAddress bt)
          (filtered ++ [(highest + 1, tx)]) (highest + 1)
      | none => expandTokensAux st tokens rest full filtered highest

/-- `expand_tokens` (database_updater.py lines 632-662): the per-transfer
loop above followed by the final loop that adds the batch tokens not yet in
`full_tokens`. -/
def expandTokens (st : TStore) (tokens : List (Str × BTok)) (txs : List TokenTxRec)
    (highest : Nat) :
    Option (List (Str × BTok) × List (Nat × TokenTxRec) × Nat) :=
  (expandTokensAux st tokens txs [] [] highest).map fun out =>
    (tokens.foldl
       (fun acc p => if (lookupStr acc p.1).isSome then acc else acc ++ [p])
       out.1,
     out.2.1, out.2.2)

/-- The token part of one committed batch (`update_bulk_db` lines 745-751):
every `full_tokens` entry is written under `token-<addr>` (with the
`txIndex` counter advanced by `fill_addrs_token_txs`; the write always
keeps the key present) and every filtered transfer is written under
`token-tx-<index>`. -/
def commitTokens (st : TStore) (full : List (Str × BTok))
    (filtered : List (Nat × TokenTxRec)) : TStore :=
  { tokenRec := fun a =>
      match lookupStr full a with
      | some bt =>
        some (encode_token
          { bt.tok with txIndex := bt.tok.txIndex + bt.transactions.length })
      | none => st.tokenRec a
    tokenTx := fun i =>
      match lookupNat filtered i with
      | some tx => some tx
      | none => st.tokenTx i }

/-- Token filter invariant (spec section 8): every stored token transfer's
token address has a token record. -/
def TokenInv (st : TStore) : Prop :=
  ∀ i tx, st.tokenTx i = some tx → (st.tokenRec tx.tokenAddress).isSome

/-! ### Read-side store (`src/database_gatherer.py`)

A RocksDB snapshot is an association list of `(key, value)` byte strings
sorted by the bytewise comparator `strLt`; `it.seek(p)` drops every entry
whose key is below `p`, and prefix iteration (`db_iter_wrapper`) takes
values while the key keeps the prefix. -/

def strLt : Str → Str → Bool
  | [], [] => false
  | [], _ :: _ => true
  | _ :: _, [] => false
  | a :: as, b :: bs => if a < b then true else if a = b then strLt as bs else false

structure KVStore where
  entries : List (Str × Str)

def kvGet (st : KVStore) (k : Str) : Option Str := lookupStr st.entries k

def prefixScan (st : KVStore) (p : Str) : List Str :=
  ((st.entries.dropWhile (fun e => strLt e.1 p)).takeWhile
    (fun e => p.isPrefixOf e.1)).map Prod.snd

def blockKey (i : Nat) : Str := ("block-").data ++ natStr i

def txKey (h : Str) : Str := ("transaction-").data ++ h

def intTxKey (v : Str) : Str := ("internal-tx-").data ++ v

def addrKey (a : Str) : Str := ("address-").data ++ a

def titPrefix (h : Str) : Str := ("associated-data-").data ++ h ++ ("-tit-").data

def inTxPrefix (a : Str) : Str := ("associated-data-").data ++ a ++ ("-i-").data

def outTxPrefix (a : Str) : Str := ("associated-data-").data ++ a ++ ("-o-").data

/-- Transaction as returned by `get_transaction_by_hash`: the decoded
record plus the `hash` key, with `internalTxIndex` popped and the internal
transactions expanded. -/
structure QTx where
  hash : Str
  blockHash : Str
  blockNumber : Str
  fromAddr : Str
  toAddr : Str
  gas : Str
  gasPrice : Str
  input : Str
  nonce : Str
  value : Str
  cumulativeGasUsed : Str
  gasUsed : Str
  logs : List LogEntry
  contractAddress : Str
  timestamp : Str
  internalTransactions : List IntTxRec
deriving DecidableEq, Repr

/-- Transaction row as returned by `get_transactions_of_address`
(`internalTransactions` popped again). -/
structure ATx where
  hash : Str
  blockHash : Str
  blockNumber : Str
  fromAddr : Str
  toAddr : Str
  gas : Str
  gasPrice : Str
  input : Str
  nonce : Str
  value : Str
  cumulativeGasUsed : Str
  gasUsed : Str
  logs : List LogEntry
  contractAddress : Str
  timestamp : Str
deriving DecidableEq, Repr

def dropInternal (q : QTx) : ATx :=
  ⟨q.hash, q.blockHash, q.blockNumber, q.fromAddr, q.toAddr, q.gas, q.gasPrice,
   q.input, q.nonce, q.value, q.cumulativeGasUsed, q.gasUsed, q.logs,
   q.contractAddress, q.timestamp⟩

/-- `get_transaction_by_hash`: outer `none` models a raised exception
(missing or undecodable internal record, undecodable transaction record);
`some none` models the Python `None` result for a missing transaction. -/
def getTransactionByHash (st : KVStore) (h : Str) : Option (Option QTx) :=
  match kvGet st (txKey h) with
  | none => some none
  | some raw =>
    match decode_transaction raw with
    | none => none
    | some t =>
      let itxRaws :=
        if 0 < t.internalTxIndex then
          prefixScan st (titPrefix h)
        else []
      match itxRaws.mapM (fun v =>
          (kvGet st (intTxKey v)).bind decode_internal_tx) with
      | none => none
      | some itxs =>
        some (some ⟨h, t.blockHash, t.blockNumber, t.fromAddr, t.toAddr, t.gas,
          t.gasPrice, t.input, t.nonce, t.value, t.cumulativeGasUsed, t.gasUsed,
          t.logs, t.contractAddress, t.timestamp, itxs⟩)

/-- One of the two symmetric loops of `get_transactions_of_address`
(lines 308-332): walk the associated-data values, break once `found`
reaches the limit, unpack `hash-value-timestamp`, apply the closed-interval
time and value filters, and hydrate matching entries. -/
def filterLoop (st : KVStore) (tF tT vF vT limit : Int) :
    List Str → Nat → Option (List ATx × Nat)
  | [], found => some ([], found)
  | v :: rest, found =>
    if limit ≤ (found : Int) then some ([], found)
    else
      match splitSep dashCh v with
      | [h, valS, tsS] =>
        match parseNat tsS, parseNat valS with
        | some tn, some vn =>
          if tF ≤ (tn : Int) ∧ (tn : Int) ≤ tT ∧ vF ≤ (vn : Int) ∧ (vn : Int) ≤ vT then
            match getTransactionByHash st h with
            | none => none
            | some none => none
            | some (some q) =>
              (filterLoop st tF tT vF vT limit rest (found + 1)).map
                (fun r => (dropInternal q :: r.1, r.2))
          else filterLoop st tF tT vF vT limit rest found
        | _, _ => none
      | _ => none

/-- The input associated-data stream scanned by `get_transactions_of_address`:
the `-i-` prefix scan, skipped entirely when the counter is zero. -/
def inStream (st : KVStore) (addr : Str) (a : AddrRec) : List Str :=
  if 0 < a.inputTxIndex then prefixScan st (inTxPrefix addr) else []

/-- The output associated-data stream (`-o-` prefix scan). -/
def outStream (st : KVStore) (addr : Str) (a : AddrRec) : List Str :=
  if 0 < a.outputTxIndex then prefixScan st (outTxPrefix addr) else []

/-- `get_transactions_of_address` (lines 274-337), in the non-`internal`
mode that returns the concatenation of the two loops' results.  Outer
`none` = raised exception, `some none` = `None` (address not found). -/
def getTransactionsOfAddress (st : KVStore) (addr : Str) (tF tT vF vT limit : Int) :
    Option (Option (List ATx)) :=
  match kvGet st (addrKey addr) with
  | none => some none
  | some raw =>
    match decode_address raw with
    | none => none
    | some a =>
      match filterLoop st tF tT vF vT limit (inStream st addr a) 0 with
      | none => none
      | some (ins, found1) =>
        match filterLoop st tF tT vF vT limit (outStream st addr a) found1 with
        | none => none
        | some (outs, _) => some (some (ins ++ outs))

/-! ### `get_blocks_by_datetime` (lines 77-145) -/

def intStr (i : Int) : Str := if i < 0 then dashCh :: natStr i.natAbs else natStr i.toNat

def tsSeekKey (tstart : Int) : Str := ("timestamp-block-").data ++ intStr tstart

/-- `int(key.decode().split('-')[-1])`: the substring after the last dash. -/
def lastDashComp (k : Str) : Str := ((splitSep dashCh k).getLast?).getD []

/-- The collection loop: starting at the seek position, decode each key's
trailing timestamp, skip entries below the window, stop at the first entry
above it, and collect block indices until `limit` entries are taken.
Running off the end of the iterator, or a key/value that does not parse,
raises (`none`). -/
def collectIdxs (tstart tend limit : Int) : List (Str × Str) → Nat → Option (List Nat)
  | [], _ => none
  | (k, v) :: rest, counter =>
    match parseNat (lastDashComp k), parseNat v with
    | some ts, some bi =>
      if (ts : Int) < tstart then collectIdxs tstart tend limit rest counter
      else if tend < (ts : Int) then some []
      else if 0 < limit ∧ limit ≤ ((counter : Int) + 1) then some [bi]
      else (collectIdxs tstart tend limit rest (counter + 1)).map (fun l => bi :: l)
    | _, _ => none

/-- Block as returned by the range materialization: `number` is the loop
index, `transactions` is the hydrated list (a missing transaction is
appended as Python `None`). -/
structure HBlock where
  number : Nat
  hash : Str
  parentHash : Str
  nonce : Str
  logsBloom : Str
  miner : Str
  difficulty : Str
  totalDifficulty : Str
  extraData : Str
  size : Str
  gasLimit : Str
  gasUsed : Str
  timestamp : Str
  sha3Uncles : Str
  transactions : List (Option QTx)
deriving DecidableEq, Repr

def materializeBlock (st : KVStore) (i : Nat) : Option HBlock :=
  match kvGet st (blockKey i) with
  | none => none
  | some raw =>
    match decode_block raw with
    | none => none
    | some b =>
      if splitSep plusCh b.transactions = [[]] then
        some ⟨i, b.hash, b.parentHash, b.nonce, b.logsBloom, b.miner, b.difficulty,
              b.totalDifficulty, b.extraData, b.size, b.gasLimit, b.gasUsed,
              b.timestamp, b.sha3Uncles, []⟩
      else
        ((splitSep plusCh b.transactions).mapM (getTransactionByHash st)).map
          (fun txs =>
            ⟨i, b.hash, b.parentHash, b.nonce, b.logsBloom, b.miner, b.difficulty,
             b.totalDifficulty, b.extraData, b.size, b.gasLimit, b.gasUsed,
             b.timestamp, b.sha3Uncles, txs⟩)

/-- `for block_index in range(lo, hi + 1)`, materializing each block. -/
def materializeRange (st : KVStore) : Nat → Nat → Option (List HBlock)
  | _, 0 => some []
  | lo, n + 1 =>
    match materializeBlock st lo, materializeRange st (lo + 1) n with
    | some b, some rest => some (b :: rest)
    | _, _ => none

/-- Python `list.sort()` on block indices (any comparison sort of naturals
produces the same list). -/
def sortNat (l : List Nat) : List Nat := List.insertionSort (· ≤ ·) l

def getBlocksByDatetime (st : KVStore) (limit tstart tend : Int) :
    Option (Option (List HBlock)) :=
  match collectIdxs tstart tend limit
      (st.entries.dropWhile (fun e => strLt e.1 (tsSeekKey tstart))) 0 with
  | none => none
  | some idxs =>
    if idxs = [] then some none
    else
      match (sortNat idxs).head?, (sortNat idxs).getLast? with
      | some lo, some hi => (materializeRange st lo (hi + 1 - lo)).map some
      | _, _ => none

/-- Boolean form of the per-entry filter of `get_transactions_of_address`:
the value unpacks as `hash-value-timestamp` and both the timestamp and the
value lie in their closed intervals. -/
def passesFilter (tF tT vF vT : Int) (v : Str) : Bool :=
  match splitSep dashCh v with
  | [_, valS, tsS] =>
    match parseNat tsS, parseNat valS with
    | some tn, some vn =>
      decide (tF ≤ (tn : Int) ∧ (tn : Int) ≤ tT ∧ vF ≤ (vn : Int) ∧ (vn : Int) ≤ vT)
    | _, _ => false
  | _ => false

/-- Hydration of one passing associated-data entry: look the transaction up
by the hash component and drop its internal transactions. -/
def hydrateEntry (st : KVStore) (v : Str) : Option ATx :=
  match splitSep dashCh v with
  | [h, _, _] =>
    match getTransactionByHash st h with
    | some (some q) => some (dropInternal q)
    | _ => none
  | _ => none

/-! ### Concrete instances used by the witnesses and counterexamples -/

def c2tx : ETx :=
  { blockHash := ("h").data, blockNumber := ("1").data, fromAddr := none,
    toAddr := some (("a").data), gas := ("g").data, gasPrice := ("p").data,
    input := ("x").data, nonce := ("n").data, value := ("v").data,
    cumulativeGasUsed := ("c").data, gasUsed := ("u").data, logs := [],
    contractAddress := [], timestamp := ("t").data, internalTxIndex := 0 }

def c2addr : AddrRec :=
  { balance := ("null").data, code := ("0x").data, inputTxIndex := 1,
    outputTxIndex := 2, minedIndex := 3, tokenContract := ("False").data,
    inputTokenTxIndex := 4, outputTokenTxIndex := 5, inputIntTxIndex := 6,
    outputIntTxIndex := 7 }

def c2block : EthBlock :=
  { hash := ("0xb").data, parentHash := ("0xp").data, nonce := ("0xn").data,
    logsBloom := ("0xl").data, miner := ("0xm").data, difficulty := ("1").data,
    totalDifficulty := ("2").data, extraData := ("0xe").data, size := ("3").data,
    gasLimit := ("4").data, gasUsed := ("5").data, timestamp := ("6").data,
    sha3Uncles := ("0xs").data, transactions := ("0xt1+0xt2").data }

def c2token : TokenRec :=
  { symbol := ("SYM").data, name := ("Name").data, decimals := ("18").data,
    totalSupply := ("100").data, type := ("ERC-20").data, txIndex := 9 }

def c2tokenTx : TokenTxRec :=
  { tokenAddress := ("0xt").data, addressFrom := ("0xa").data,
    addressTo := ("0xb").data, value := ("5").data,
    transactionHash := ("0xh").data, timestamp := ("9").data }

def c2intTx : IntTxRec :=
  { fromAddr := ("0xa").data, toAddr := ("0xb").data, value := ("5").data,
    input := ("0xi").data, output := ("0xo").data, traceType := ("call").data,
    callType := ("call").data, rewardType := [], gas := ("7").data,
    gasUsed := ("8").data, transactionHash := ("0xh").data,
    timestamp := ("9").data, error := [] }

def c7rows : List (Str × Str) := [(("d").data, ("a,b").data)]

def c1data : AddrData :=
  { code := ("0x").data, tokenContract := none, mined := [],
    newInputTxs := [((("0xh").data), (("5").data), (("9").data))],
    newOutputTxs := [], newInputTokens := [], newOutputTokens := [],
    newIntInputTxs := [], newIntOutputTxs := [] }

def c1batch : List (Str × AddrData) := [((("0xa").data), c1data)]

def c4rec : AddrRec :=
  { balance := ("7").data, code := ("0x").data, inputTxIndex := 0,
    outputTxIndex := 0, minedIndex := 0, tokenContract := ("False").data,
    inputTokenTxIndex := 0, outputTokenTxIndex := 0, inputIntTxIndex := 0,
    outputIntTxIndex := 0 }

def c4store : IStore :=
  ⟨fun x => if x = ("0xa").data then some c4rec else none, fun _ _ _ => none⟩

def c4data : AddrData :=
  { code := ("0x").data, tokenContract := none, mined := [],
    newInputTxs := [((("0xh").data), (("5").data), (("9").data))],
    newOutputTxs := [], newInputTokens := [], newOutputTokens := [],
    newIntInputTxs := [], newIntOutputTxs := [] }

def c4batch : List (Str × AddrData) := [((("0xa").data), c4data)]

def c3tok : TokenRec :=
  { symbol := ("SYM").data, name := ("Name").data, decimals := ("18").data,
    totalSupply := ("100").data, type := ("ERC-20").data, txIndex := 0 }

def c3btok : BTok := ⟨c3tok, []⟩

def c3tokens : List (Str × BTok) := [((("0xt").data), c3btok)]

def c3tx : TokenTxRec :=
  { tokenAddress := ("0xt").data, addressFrom := ("0xa").data,
    addressTo := ("0xb").data, value := ("5").data,
    transactionHash := ("0xh").data, timestamp := ("9").data }

def c3txUnknown : TokenTxRec :=
  { tokenAddress := ("0xu").data, addressFrom := ("0xa").data,
    addressTo := ("0xb").data, value := ("6").data,
    transactionHash := ("0xg").data, timestamp := ("9").data }

def c3store : TStore := ⟨fun _ => none, fun _ => none⟩

def c3full : List (Str × BTok) := [((("0xt").data), c3btok)]

def c3filtered : List (Nat × TokenTxRec) := [(1, c3tx)]

def c9rec : AddrRec :=
  { balance := ("null").data, code := ("0x").data, inputTxIndex := 1,
    outputTxIndex := 0, minedIndex := 0, tokenContract := ("False").data,
    inputTokenTxIndex := 0, outputTokenTxIndex := 0, inputIntTxIndex := 0,
    outputIntTxIndex := 0 }

def c9store : Str → Option Str :=
  fun k => if k = ("address-").data ++ ("0xa").data
           then some (encode_address c9rec) else none

def c9bals : List (Str × Str) := [((("0xa").data), (("42").data))]

def c9batch : List (Str × Str) :=
  [(("address-").data ++ ("0xa").data,
    encode_address { c9rec with balance := ("42").data })]

def c10rec : AddrRec :=
  { balance := ("null").data, code := ("0x").data, inputTxIndex := 0,
    outputTxIndex := 0, minedIndex := 0, tokenContract := ("False").data,
    inputTokenTxIndex := 0, outputTokenTxIndex := 0, inputIntTxIndex := 0,
    outputIntTxIndex := 0 }

def c10store : Str → Option Str :=
  fun k => if k = ("address-").data ++ ("0xa").data
           then some (encode_address c10rec) else none

def c10bals : List (Str × Str) :=
  [((("0xa").data), (("1").data)), ((("0xb").data), (("2").data))]

def c10batch : List (Str × Str) :=
  [(("address-").data ++ ("0xa").data,
    encode_address { c10rec with balance := ("1").data })]

def c5block (ts : Str) : EthBlock :=
  { hash := ("0xb").data, parentHash := ("0xp").data, nonce := ("0xn").data,
    logsBloom := ("0xl").data, miner := ("0xm").data, difficulty := ("1").data,
    totalDifficulty := ("2").data, extraData := ("0xe").data, size := ("3").data,
    gasLimit := ("4").data, gasUsed := ("5").data, timestamp := ts,
    sha3Uncles := ("0xs").data, transactions := [] }

def c5store : KVStore :=
  ⟨[((("block-1").data), encode_block (c5block (("10").data))),
    ((("block-2").data), encode_block (c5block (("50").data))),
    ((("block-3").data), encode_block (c5block (("20").data))),
    ((("timestamp-block-10").data), (("1").data)),
    ((("timestamp-block-20").data), (("3").data)),
    ((("timestamp-block-50").data), (("2").data))]⟩

def c5hb (i : Nat) (ts : Str) : HBlock :=
  { number := i, hash := ("0xb").data, parentHash := ("0xp").data,
    nonce := ("0xn").data, logsBloom := ("0xl").data, miner := ("0xm").data,
    difficulty := ("1").data, totalDifficulty := ("2").data,
    extraData := ("0xe").data, size := ("3").data, gasLimit := ("4").data,
    gasUsed := ("5").data, timestamp := ts, sha3Uncles := ("0xs").data,
    transactions := [] }

def c8tx : ETx :=
  { blockHash := ("0xbh").data, blockNumber := ("1").data,
    fromAddr := some (("0xa").data), toAddr := some (("0xa").data),
    gas := ("g").data, gasPrice := ("p").data, input := ("x").data,
    nonce := ("n").data, value := ("5").data, cumulativeGasUsed := ("c").data,
    gasUsed := ("u").data, logs := [], contractAddress := [],
    timestamp := ("100").data, internalTxIndex := 0 }

def c8rec : AddrRec :=
  { balance := ("null").data, code := ("0x").data, inputTxIndex := 1,
    outputTxIndex := 1, minedIndex := 0, tokenContract := ("False").data,
    inputTokenTxIndex := 0, outputTokenTxIndex := 0, inputIntTxIndex := 0,
    outputIntTxIndex := 0 }

def c8store : KVStore :=
  ⟨[((("address-0xa").data), encode_address c8rec),
    ((("associated-data-0xa-i-1").data), (("0xh-5-100").data)),
    ((("associated-data-0xa-o-1").data), (("0xh-5-100").data)),
    ((("transaction-0xh").data), encode_transaction c8tx)]⟩

def c8atx : ATx :=
  { hash := ("0xh").data, blockHash := ("0xbh").data, blockNumber := ("1").data,
    fromAddr := ("0xa").data, toAddr := ("0xa").data, gas := ("g").data,
    gasPrice := ("p").data, input := ("x").data, nonce := ("n").data,
    value := ("5").data, cumulativeGasUsed := ("c").data, gasUsed := ("u").data,
    logs := [⟨[], []⟩], contractAddress := [], timestamp := ("100").data }

theorem splitSep_ne_nil (sep : Char) (s : Str) : splitSep sep s ≠ [] := by
  induction s with
  | nil => simp [splitSep]
  | cons c cs ih =>
    simp only [splitSep]
    split
    · simp
    · split
      · simp
      · simp

theorem splitSep_cons (sep c : Char) (cs : Str) :
    splitSep sep (c :: cs) =
      if c = sep then [] :: splitSep sep cs
      else
        match splitSep sep cs with
        | f :: rest => (c :: f) :: rest
        | [] => [[c]] := rfl

theorem splitSep_append_sep (sep : Char) (f rest : Str) (hf : sep ∉ f) :
    splitSep sep (f ++ sep :: rest) = f :: splitSep sep rest := by
  induction f with
  | nil => simp [splitSep]
  | cons c cs ih =>
    have hc : c ≠ sep := by
      intro h; exact hf (h ▸ List.mem_cons_self c cs)
    have hcs : sep ∉ cs := fun h => hf (List.mem_cons_of_mem c h)
    rw [List.cons_append, splitSep_cons, if_neg hc, ih hcs]

theorem splitSep_no_sep (sep : Char) (f : Str) (hf : sep ∉ f) :
    splitSep sep f = [f] := by
  induction f with
  | nil => simp [splitSep]
  | cons c cs ih =>
    have hc : c ≠ sep := by
      intro h; exact hf (h ▸ List.mem_cons_self c cs)
    have hcs : sep ∉ cs := fun h => hf (List.mem_cons_of_mem c h)
    simp only [splitSep, if_neg hc, ih hcs]

theorem natStrAux_fuel (f₁ f₂ n : Nat) (h₁ : n ≤ f₁) (h₂ : n ≤ f₂) :
    natStrAux f₁ n = natStrAux f₂ n := by
  induction n using Nat.strong_induction_on generalizing f₁ f₂ with
  | _ n ih =>
    match n, f₁, f₂ with
    | 0, 0, 0 => rfl
    | 0, 0, _ + 1 => rfl
    | 0, _ + 1, 0 => rfl
    | 0, _ + 1, _ + 1 => rfl
    | n + 1, g₁ + 1, g₂ + 1 =>
      simp only [natStrAux]
      have hd : (n + 1) / 10 < n + 1 := Nat.div_lt_self (Nat.succ_pos n) (by omega)
      rw [ih ((n + 1) / 10) hd g₁ g₂ (by omega) (by omega)]

theorem parseNatAux_append (xs ys : Str) (acc : Nat) :
    parseNatAux (xs ++ ys) acc = (parseNatAux xs acc).bind (parseNatAux ys) := by
  induction xs generalizing acc with
  | nil => simp [parseNatAux]
  | cons c cs ih =>
    simp only [List.cons_append, parseNatAux]
    split
    · exact ih _
    · rfl

theorem natStrAux_ne_nil (f n : Nat) (hn : 0 < n) (hf : n ≤ f) :
    natStrAux f n ≠ [] := by
  match n, f with
  | n + 1, f + 1 => simp [natStrAux]

theorem digitCh_toNat (d : Nat) (hd : d < 10) : (digitCh d).toNat = 48 + d := by
  interval_cases d <;> decide

theorem parseNatAux_natStrAux (n : Nat) :
    ∀ f acc, n ≤ f → 0 < n →
      parseNatAux (natStrAux f n) acc = some (acc * 10 ^ (natStrAux f n).length + n) := by
  induction n using Nat.strong_induction_on with
  | _ n ih =>
    intro f acc hf hn
    match n, f with
    | n + 1, f + 1 =>
      simp only [natStrAux]
      rw [parseNatAux_append]
      have hmod : (n + 1) % 10 < 10 := Nat.mod_lt _ (by omega)
      have hdig : ∀ a, parseNatAux [digitCh ((n + 1) % 10)] a =
          some (a * 10 + (n + 1) % 10) := by
        intro a
        simp only [parseNatAux, digitCh_toNat _ hmod]
        rw [if_pos (by omega)]
        congr 1
        omega
      by_cases hq : (n + 1) / 10 = 0
      · have hnil : natStrAux f ((n + 1) / 10) = [] := by
          rw [hq]; cases f <;> rfl
        rw [hnil, show parseNatAux [] acc = some acc from rfl, Option.some_bind, hdig acc]
        have hlt : n + 1 < 10 := by omega
        simp only [List.nil_append, List.length_cons, List.length_nil, zero_add, pow_one]
        congr 1
        omega
      · have hql : (n + 1) / 10 < n + 1 := Nat.div_lt_self (Nat.succ_pos n) (by omega)
        have hr := ih ((n + 1) / 10) hql f acc (by omega) (by omega)
        rw [hr, Option.some_bind, hdig]
        simp only [List.length_append, List.length_cons, List.length_nil]
        congr 1
        rw [pow_succ]
        generalize (10 : Nat) ^ (natStrAux f ((n + 1) / 10)).length = k
        have hstep : (acc * k + (n + 1) / 10) * 10 + (n + 1) % 10
            = acc * (k * 10) + (10 * ((n + 1) / 10) + (n + 1) % 10) := by ring
        rw [hstep, Nat.div_add_mod]

/-- Parsing inverts printing: `int(str(n)) == n`. -/
theorem parseNat_natStr (n : Nat) : parseNat (natStr n) = some n := by
  by_cases hn : n = 0
  · subst hn; decide
  · have hpos : 0 < n := Nat.pos_of_ne_zero hn
    have hne := natStrAux_ne_nil n n hpos le_rfl
    unfold natStr
    rw [if_neg hn]
    match hs : natStrAux n n with
    | [] => exact absurd hs hne
    | c :: cs =>
      show parseNatAux (c :: cs) 0 = some n
      have := parseNatAux_natStrAux n n 0 le_rfl hpos
      rw [hs] at this
      simpa using this

theorem mem_natStrAux_digit (f n : Nat) (c : Char) (hc : c ∈ natStrAux f n) :
    48 ≤ c.toNat ∧ c.toNat ≤ 57 := by
  induction f generalizing n with
  | zero => simp [natStrAux] at hc
  | succ f ih =>
    match n with
    | 0 => simp [natStrAux] at hc
    | n + 1 =>
      simp only [natStrAux, List.mem_append, List.mem_singleton] at hc
      rcases hc with hc | hc
      · exact ih _ hc
      · subst hc
        have hmod : (n + 1) % 10 < 10 := Nat.mod_lt _ (by omega)
        rw [digitCh_toNat _ hmod]
        omega

theorem mem_natStr_digit (n : Nat) (c : Char) (hc : c ∈ natStr n) :
    48 ≤ c.toNat ∧ c.toNat ≤ 57 := by
  unfold natStr at hc
  split at hc
  · simp only [List.mem_singleton] at hc
    subst hc; decide
  · exact mem_natStrAux_digit _ _ _ hc

theorem nul_not_mem_natStr (n : Nat) : nul ∉ natStr n := by
  intro h
  have := mem_natStr_digit n nul h
  simp [nul] at this

theorem dash_not_mem_natStr (n : Nat) : Char.ofNat 45 ∉ natStr n := by
  intro h
  have := mem_natStr_digit n (Char.ofNat 45) h
  simp at this

/-! ### Round-trip lemmas for the five record types whose codec is invertible -/

theorem decode_encode_address (a : AddrRec) (h : WFaddrRec a) :
    decode_address (encode_address a) = some a := by
  obtain ⟨h1, h2, h3⟩ := h
  have hsplit : splitSep nul (encode_address a) =
      [a.balance, a.code, natStr a.inputTxIndex, natStr a.outputTxIndex,
       natStr a.minedIndex, a.tokenContract, natStr a.inputTokenTxIndex,
       natStr a.outputTokenTxIndex, natStr a.inputIntTxIndex,
       natStr a.outputIntTxIndex, []] := by
    unfold encode_address
    rw [splitSep_append_sep _ _ _ h1, splitSep_append_sep _ _ _ h2,
        splitSep_append_sep _ _ _ (nul_not_mem_natStr _),
        splitSep_append_sep _ _ _ (nul_not_mem_natStr _),
        splitSep_append_sep _ _ _ (nul_not_mem_natStr _),
        splitSep_append_sep _ _ _ h3,
        splitSep_append_sep _ _ _ (nul_not_mem_natStr _),
        splitSep_append_sep _ _ _ (nul_not_mem_natStr _),
        splitSep_append_sep _ _ _ (nul_not_mem_natStr _),
        splitSep_append_sep _ _ _ (nul_not_mem_natStr _)]
    rfl
  unfold decode_address
  rw [hsplit]
  simp [parseNat_natStr]

theorem decode_encode_block (b : EthBlock) (h : WFblock b) :
    decode_block (encode_block b) = some b := by
  obtain ⟨h1, h2, h3, h4, h5, h6, h7, h8, h9, h10, h11, h12, h13, h14⟩ := h
  have hsplit : splitSep nul (encode_block b) =
      [b.hash, b.parentHash, b.nonce, b.logsBloom, b.miner, b.difficulty,
       b.totalDifficulty, b.extraData, b.size, b.gasLimit, b.gasUsed,
       b.timestamp, b.sha3Uncles, b.transactions] := by
    unfold encode_block
    rw [splitSep_append_sep _ _ _ h1, splitSep_append_sep _ _ _ h2,
        splitSep_append_sep _ _ _ h3, splitSep_append_sep _ _ _ h4,
        splitSep_append_sep _ _ _ h5, splitSep_append_sep _ _ _ h6,
        splitSep_append_sep _ _ _ h7, splitSep_append_sep _ _ _ h8,
        splitSep_append_sep _ _ _ h9, splitSep_append_sep _ _ _ h10,
        splitSep_append_sep _ _ _ h11, splitSep_append_sep _ _ _ h12,
        splitSep_append_sep _ _ _ h13, splitSep_no_sep _ _ h14]
  unfold decode_block
  rw [hsplit]

theorem decode_encode_token (t : TokenRec) (h : WFtoken t) :
    decode_token (encode_token t) = some t := by
  obtain ⟨h1, h2, h3, h4, h5⟩ := h
  have hsplit : splitSep nul (encode_token t) =
      [t.symbol, t.name, t.decimals, t.totalSupply, t.type, natStr t.txIndex, []] := by
    unfold encode_token
    rw [splitSep_append_sep _ _ _ h1, splitSep_append_sep _ _ _ h2,
        splitSep_append_sep _ _ _ h3, splitSep_append_sep _ _ _ h4,
        splitSep_append_sep _ _ _ h5,
        splitSep_append_sep _ _ _ (nul_not_mem_natStr _)]
    rfl
  unfold decode_token
  rw [hsplit]
  simp [parseNat_natStr]

theorem decode_encode_token_tx (t : TokenTxRec) (h : WFtokenTx t) :
    decode_token_tx (encode_token_tx t) = some t := by
  obtain ⟨h1, h2, h3, h4, h5, h6⟩ := h
  have hsplit : splitSep nul (encode_token_tx t) =
      [t.tokenAddress, t.addressFrom, t.addressTo, t.value, t.transactionHash,
       t.timestamp, []] := by
    unfold encode_token_tx
    rw [splitSep_append_sep _ _ _ h1, splitSep_append_sep _ _ _ h2,
        splitSep_append_sep _ _ _ h3, splitSep_append_sep _ _ _ h4,
        splitSep_append_sep _ _ _ h5, splitSep_append_sep _ _ _ h6]
    rfl
  unfold decode_token_tx
  rw [hsplit]

theorem decode_encode_internal_tx (t : IntTxRec) (h : WFintTx t) :
    decode_internal_tx (encode_internal_tx t) = some t := by
  obtain ⟨h1, h2, h3, h4, h5, h6, h7, h8, h9, h10, h11, h12, h13⟩ := h
  have hsplit : splitSep nul (encode_internal_tx t) =
      [t.fromAddr, t.toAddr, t.value, t.input, t.output, t.traceType, t.callType,
       t.rewardType, t.gas, t.gasUsed, t.transactionHash, t.timestamp, t.error, []] := by
    unfold encode_internal_tx
    rw [splitSep_append_sep _ _ _ h1, splitSep_append_sep _ _ _ h2,
        splitSep_append_sep _ _ _ h3, splitSep_append_sep _ _ _ h4,
        splitSep_append_sep _ _ _ h5, splitSep_append_sep _ _ _ h6,
        splitSep_append_sep _ _ _ h7, splitSep_append_sep _ _ _ h8,
        splitSep_append_sep _ _ _ h9, splitSep_append_sep _ _ _ h10,
        splitSep_append_sep _ _ _ h11, splitSep_append_sep _ _ _ h12,
        splitSep_append_sep _ _ _ h13]
    rfl
  unfold decode_internal_tx
  rw [hsplit]

theorem retryLoop_other_spins {α : Type} :
    ∀ (fuel i : Nat),
      retryLoop (fun _ => (FetchOutcome.errOther : FetchOutcome α)) fuel i 0 =
        FetchResult.spinning := by
  intro fuel
  induction fuel with
  | zero => intro i; rfl
  | succ f ih =>
    intro i
    simp only [retryLoop, RETRY_LIMIT]
    rw [if_neg (by omega)]
    exact ih (i + 1)

theorem retryLoop_no_other_terminates {α : Type} (att : Nat → FetchOutcome α)
    (h : ∀ j, att j ≠ .errOther) :
    ∀ (fuel counter i : Nat), counter ≤ RETRY_LIMIT →
      RETRY_LIMIT + 1 - counter ≤ fuel →
      retryLoop att fuel i counter ≠ .spinning := by
  intro fuel
  induction fuel with
  | zero =>
    intro counter i hc hf
    simp only [RETRY_LIMIT] at hc hf
    omega
  | succ f ih =>
    intro counter i hc hf
    simp only [retryLoop]
    match hatt : att i with
    | .ok v => simp
    | .errMissing =>
      by_cases hcnt : RETRY_LIMIT ≤ counter
      · rw [if_pos hcnt]; simp
      · rw [if_neg hcnt]
        exact ih (counter + 1) (i + 1) (by omega) (by simp only [RETRY_LIMIT] at *; omega)
    | .errOther => exact absurd hatt (h i)

theorem retryLoop_all_missing_raises {α : Type} (att : Nat → FetchOutcome α)
    (h : ∀ j, att j = .errMissing) :
    ∀ (fuel counter i : Nat), counter ≤ RETRY_LIMIT →
      RETRY_LIMIT + 1 - counter ≤ fuel →
      retryLoop att fuel i counter = .raised := by
  intro fuel
  induction fuel with
  | zero =>
    intro counter i hc hf
    simp only [RETRY_LIMIT] at hc hf
    omega
  | succ f ih =>
    intro counter i hc hf
    simp only [retryLoop, h i]
    by_cases hcnt : RETRY_LIMIT ≤ counter
    · rw [if_pos hcnt]
    · rw [if_neg hcnt]
      exact ih (counter + 1) (i + 1) (by omega) (by simp only [RETRY_LIMIT] at *; omega)

theorem applyBatch_not_mem (store : Str → Option Str) (batch : List (Str × Str))
    (k : Str) (h : ∀ kv ∈ batch, kv.1 ≠ k) : applyBatch store batch k = store k := by
  induction batch generalizing store with
  | nil => rfl
  | cons kv rest ih =>
    simp only [applyBatch, List.foldl_cons] at *
    rw [ih]
    · rw [if_neg (fun hk => h kv (List.mem_cons_self kv rest) hk.symm)]
    · intro kv' hkv'
      exact h kv' (List.mem_cons_of_mem kv hkv')

theorem updateDbBalances_keys_exist (store : Str → Option Str)
    (bals : List (Str × Str)) (batch : List (Str × Str))
    (hup : updateDbBalances store bals = some batch) :
    ∀ k v, (k, v) ∈ batch → (store k).isSome := by
  induction bals generalizing batch with
  | nil =>
    simp only [updateDbBalances, Option.some_inj] at hup
    subst hup
    intro k v h
    simp at h
  | cons ab rest ih =>
    obtain ⟨a, b⟩ := ab
    simp only [updateDbBalances] at hup
    match hst : store (("address-").data ++ a) with
    | none =>
      simp only [hst] at hup
      exact ih batch hup
    | some raw =>
      simp only [hst] at hup
      match hdec : decode_address raw with
      | none => simp [hdec] at hup
      | some r0 =>
        simp only [hdec] at hup
        match hrest : updateDbBalances store rest with
        | none => simp [hrest] at hup
        | some tail =>
          simp only [hrest, Option.map_some', Option.some.injEq] at hup
          subst hup
          intro k v hmem
          rcases List.mem_cons.1 hmem with hk | hk
          · have : k = ("address-").data ++ a := congrArg Prod.fst hk
            rw [this, hst]
            rfl
          · exact ih tail hrest k v hk

theorem updateDbBalances_mem_frame (store : Str → Option Str)
    (bals : List (Str × Str)) (batch : List (Str × Str)) (a b : Str) (r : AddrRec)
    (hup : updateDbBalances store bals = some batch)
    (hmem : (a, b) ∈ bals)
    (hst : store (("address-").data ++ a) = some (encode_address r))
    (hwf : WFaddrRec r) (hb : nul ∉ b) :
    (("address-").data ++ a, encode_address { r with balance := b }) ∈ batch ∧
      decode_address (encode_address { r with balance := b }) =
        some { r with balance := b } := by
  have hdec2 : decode_address (encode_address { r with balance := b }) =
      some { r with balance := b } :=
    decode_encode_address _ ⟨hb, hwf.2.1, hwf.2.2⟩
  refine ⟨?_, hdec2⟩
  induction bals generalizing batch with
  | nil => simp at hmem
  | cons ab rest ih =>
    obtain ⟨a', b'⟩ := ab
    simp only [updateDbBalances] at hup
    match hst' : store (("address-").data ++ a') with
    | none =>
      simp only [hst'] at hup
      rcases List.mem_cons.1 hmem with hk | hk
      · injection hk with hk1 hk2
        subst hk1
        rw [hst] at hst'
        exact absurd hst' (by simp)
      · exact ih batch hup hk
    | some raw =>
      simp only [hst'] at hup
      match hdec : decode_address raw with
      | none => simp [hdec] at hup
      | some r0 =>
        simp only [hdec] at hup
        match hrest : updateDbBalances store rest with
        | none => simp [hrest] at hup
        | some tail =>
          simp only [hrest, Option.map_some', Option.some.injEq] at hup
          subst hup
          rcases List.mem_cons.1 hmem with hk | hk
          · injection hk with hk1 hk2
            subst hk1
            subst hk2
            rw [hst] at hst'
            injection hst' with hraw
            subst hraw
            rw [decode_encode_address r hwf] at hdec
            injection hdec with hr0
            subst hr0
            exact List.mem_cons_self _ _
          · exact List.mem_cons_of_mem _ (ih tail hrest hk)

theorem optOr_none_left (y : Option Str) : optOr none y = y := rfl

theorem optOr_none_right (x : Option Str) : optOr x none = x := by
  cases x <;> rfl

theorem findVal_append (xs ys : List (WKey × Str)) (q : WKey) :
    findVal (xs ++ ys) q = optOr (findVal xs q) (findVal ys q) := by
  induction xs with
  | nil => rfl
  | cons kv rest ih =>
    obtain ⟨k, v⟩ := kv
    simp only [List.cons_append, findVal]
    split
    · rfl
    · exact ih

theorem tagWritesAux_findVal_ne (a : Str) (t : StreamTag) (last : Nat) (ds : List Str)
    (a' : Str) (t' : StreamTag) (k : Nat) (h : a' ≠ a ∨ t' ≠ t) :
    findVal (tagWritesAux a t last ds) (a', t', k) = none := by
  induction ds generalizing last with
  | nil => rfl
  | cons d ds ih =>
    simp only [tagWritesAux, findVal]
    rw [if_neg]
    · exact ih (last + 1)
    · intro hk
      injection hk with h1 h2
      injection h2 with h2 h3
      rcases h with h | h
      · exact h h1.symm
      · exact h h2.symm

theorem tagWritesAux_findVal (a : Str) (t : StreamTag) (last : Nat) (ds : List Str)
    (k : Nat) :
    findVal (tagWritesAux a t last ds) (a, t, k) =
      if last < k ∧ k ≤ last + ds.length then ds.get? (k - (last + 1)) else none := by
  induction ds generalizing last with
  | nil =>
    simp only [tagWritesAux, findVal, List.length_nil]
    rw [if_neg (by omega)]
  | cons d ds ih =>
    simp only [tagWritesAux, findVal, List.length_cons]
    by_cases hk : k = last + 1
    · subst hk
      rw [if_pos rfl, if_pos (by omega)]
      simp
    · rw [if_neg (by intro hq; injection hq with h1 h2; injection h2 with h2 h3; omega)]
      rw [ih (last + 1)]
      by_cases hin : last + 1 < k ∧ k ≤ last + 1 + ds.length
      · rw [if_pos hin, if_pos (by omega)]
        obtain ⟨j, hj⟩ : ∃ j, k - (last + 1) = j + 1 := ⟨k - (last + 2), by omega⟩
        rw [hj]
        have hjj : k - (last + 1 + 1) = j := by omega
        rw [hjj]
        simp
      · rw [if_neg hin, if_neg (by omega)]

theorem addrWrites_findVal_ne (st : IStore) (a : Str) (d : AddrData)
    (a' : Str) (t : StreamTag) (k : Nat) (h : a' ≠ a) :
    findVal (addrWrites st a d) (a', t, k) = none := by
  simp only [addrWrites, findVal_append,
    tagWritesAux_findVal_ne _ _ _ _ _ _ _ (Or.inl h), optOr_none_left]

theorem addrWrites_findVal (st : IStore) (a : Str) (d : AddrData)
    (t : StreamTag) (k : Nat) :
    findVal (addrWrites st a d) (a, t, k) =
      if counterStore st a t < k ∧ k ≤ counterStore st a t + (deltasFor d t).length then
        (deltasFor d t).get? (k - (counterStore st a t + 1))
      else none := by
  cases t
  case inTx =>
    simp only [addrWrites, findVal_append]
    rw [
        tagWritesAux_findVal a .inTx _ _ k,
        tagWritesAux_findVal_ne a .outTx _ _ a .inTx k (Or.inr (by decide)),
        tagWritesAux_findVal_ne a .mined _ _ a .inTx k (Or.inr (by decide)),
        tagWritesAux_findVal_ne a .inTok _ _ a .inTx k (Or.inr (by decide)),
        tagWritesAux_findVal_ne a .outTok _ _ a .inTx k (Or.inr (by decide)),
        tagWritesAux_findVal_ne a .inInt _ _ a .inTx k (Or.inr (by decide)),
        tagWritesAux_findVal_ne a .outInt _ _ a .inTx k (Or.inr (by decide))]
    simp only [optOr_none_left, optOr_none_right]
  case outTx =>
    simp only [addrWrites, findVal_append]
    rw [
        tagWritesAux_findVal_ne a .inTx _ _ a .outTx k (Or.inr (by decide)),
        tagWritesAux_findVal a .outTx _ _ k,
        tagWritesAux_findVal_ne a .mined _ _ a .outTx k (Or.inr (by decide)),
        tagWritesAux_findVal_ne a .inTok _ _ a .outTx k (Or.inr (by decide)),
        tagWritesAux_findVal_ne a .outTok _ _ a .outTx k (Or.inr (by decide)),
        tagWritesAux_findVal_ne a .inInt _ _ a .outTx k (Or.inr (by decide)),
        tagWritesAux_findVal_ne a .outInt _ _ a .outTx k (Or.inr (by decide))]
    simp only [optOr_none_left, optOr_none_right]
  case mined =>
    simp only [addrWrites, findVal_append]
    rw [
        tagWritesAux_findVal_ne a .inTx _ _ a .mined k (Or.inr (by decide)),
        tagWritesAux_findVal_ne a .outTx _ _ a .mined k (Or.inr (by decide)),
        tagWritesAux_findVal a .mined _ _ k,
        tagWritesAux_findVal_ne a .inTok _ _ a .mined k (Or.inr (by decide)),
        tagWritesAux_findVal_ne a .outTok _ _ a .mined k (Or.inr (by decide)),
        tagWritesAux_findVal_ne a .inInt _ _ a .mined k (Or.inr (by decide)),
        tagWritesAux_findVal_ne a .outInt _ _ a .mined k (Or.inr (by decide))]
    simp only [optOr_none_left, optOr_none_right]
  case inTok =>
    simp only [addrWrites, findVal_append]
    rw [
        tagWritesAux_findVal_ne a .inTx _ _ a .inTok k (Or.inr (by decide)),
        tagWritesAux_findVal_ne a .outTx _ _ a .inTok k (Or.inr (by decide)),
        tagWritesAux_findVal_ne a .mined _ _ a .inTok k (Or.inr (by decide)),
        tagWritesAux_findVal a .inTok _ _ k,
        tagWritesAux_findVal_ne a .outTok _ _ a .inTok k (Or.inr (by decide)),
        tagWritesAux_findVal_ne a .inInt _ _ a .inTok k (Or.inr (by decide)),
        tagWritesAux_findVal_ne a .outInt _ _ a .inTok k (Or.inr (by decide))]
    simp only [optOr_none_left, optOr_none_right]
  case outTok =>
    simp only [addrWrites, findVal_append]
    rw [
        tagWritesAux_findVal_ne a .inTx _ _ a .outTok k (Or.inr (by decide)),
        tagWritesAux_findVal_ne a .outTx _ _ a .outTok k (Or.inr (by decide)),
        tagWritesAux_findVal_ne a .mined _ _ a .outTok k (Or.inr (by decide)),
        tagWritesAux_findVal_ne a .inTok _ _ a .outTok k (Or.inr (by decide)),
        tagWritesAux_findVal a .outTok _ _ k,
        tagWritesAux_findVal_ne a .inInt _ _ a .outTok k (Or.inr (by decide)),
        tagWritesAux_findVal_ne a .outInt _ _ a .outTok k (Or.inr (by decide))]
    simp only [optOr_none_left, optOr_none_right]
  case inInt =>
    simp only [addrWrites, findVal_append]
    rw [
        tagWritesAux_findVal_ne a .inTx _ _ a .inInt k (Or.inr (by decide)),
        tagWritesAux_findVal_ne a .outTx _ _ a .inInt k (Or.inr (by decide)),
        tagWritesAux_findVal_ne a .mined _ _ a .inInt k (Or.inr (by decide)),
        tagWritesAux_findVal_ne a .inTok _ _ a .inInt k (Or.inr (by decide)),
        tagWritesAux_findVal_ne a .outTok _ _ a .inInt k (Or.inr (by decide)),
        tagWritesAux_findVal a .inInt _ _ k,
        tagWritesAux_findVal_ne a .outInt _ _ a .inInt k (Or.inr (by decide))]
    simp only [optOr_none_left, optOr_none_right]
  case outInt =>
    simp only [addrWrites, findVal_append]
    rw [
        tagWritesAux_findVal_ne a .inTx _ _ a .outInt k (Or.inr (by decide)),
        tagWritesAux_findVal_ne a .outTx _ _ a .outInt k (Or.inr (by decide)),
        tagWritesAux_findVal_ne a .mined _ _ a .outInt k (Or.inr (by decide)),
        tagWritesAux_findVal_ne a .inTok _ _ a .outInt k (Or.inr (by decide)),
        tagWritesAux_findVal_ne a .outTok _ _ a .outInt k (Or.inr (by decide)),
        tagWritesAux_findVal_ne a .inInt _ _ a .outInt k (Or.inr (by decide)),
        tagWritesAux_findVal a .outInt _ _ k]
    simp only [optOr_none_left, optOr_none_right]

theorem batchWrites_findVal_not_mem (st : IStore) (batch : List (Str × AddrData))
    (a : Str) (t : StreamTag) (k : Nat) (h : ∀ p ∈ batch, p.1 ≠ a) :
    findVal (batchWrites st batch) (a, t, k) = none := by
  induction batch with
  | nil => rfl
  | cons p rest ih =>
    obtain ⟨a', d'⟩ := p
    simp only [batchWrites, findVal_append]
    rw [addrWrites_findVal_ne st a' d' a t k
        (fun hh => h (a', d') (List.mem_cons_self _ _) hh.symm)]
    rw [optOr_none_left]
    exact ih (fun p hp => h p (List.mem_cons_of_mem _ hp))

theorem batchWrites_findVal (st : IStore) (batch : List (Str × AddrData))
    (hnd : (batch.map Prod.fst).Nodup) (a : Str) (t : StreamTag) (k : Nat) :
    findVal (batchWrites st batch) (a, t, k) =
      match findAddr batch a with
      | some d => findVal (addrWrites st a d) (a, t, k)
      | none => none := by
  induction batch with
  | nil => rfl
  | cons p rest ih =>
    obtain ⟨a', d'⟩ := p
    simp only [List.map_cons, List.nodup_cons] at hnd
    simp only [batchWrites, findVal_append, findAddr]
    by_cases ha : a' = a
    · subst ha
      rw [if_pos rfl]
      rw [batchWrites_findVal_not_mem st rest a' t k
          (fun p hp hpa => hnd.1 (hpa ▸ List.mem_map_of_mem Prod.fst hp))]
      exact optOr_none_right _
    · rw [if_neg ha]
      rw [addrWrites_findVal_ne st a' d' a t k (fun hh => ha hh.symm), optOr_none_left]
      exact ih hnd.2

theorem commitBatch_addr_mem (st : IStore) (batch : List (Str × AddrData))
    (a : Str) (d : AddrData) (hfind : findAddr batch a = some d) :
    (commitBatch st batch).addr a = some (newRecord st a d) := by
  show (match findAddr batch a with
        | some d => some (newRecord st a d)
        | none => st.addr a) = _
  rw [hfind]

theorem commitBatch_addr_not_mem (st : IStore) (batch : List (Str × AddrData))
    (a : Str) (hfind : findAddr batch a = none) :
    (commitBatch st batch).addr a = st.addr a := by
  show (match findAddr batch a with
        | some d => some (newRecord st a d)
        | none => st.addr a) = _
  rw [hfind]

theorem counterOf_newRecord (st : IStore) (a : Str) (d : AddrData) (t : StreamTag) :
    counterOf (newRecord st a d) t = counterStore st a t + (deltasFor d t).length := by
  cases t <;> rfl

theorem commitBatch_counter_mem (st : IStore) (batch : List (Str × AddrData))
    (a : Str) (d : AddrData) (t : StreamTag) (hfind : findAddr batch a = some d) :
    counterStore (commitBatch st batch) a t =
      counterStore st a t + (deltasFor d t).length := by
  unfold counterStore
  rw [commitBatch_addr_mem st batch a d hfind]
  exact counterOf_newRecord st a d t

theorem commitBatch_counter_not_mem (st : IStore) (batch : List (Str × AddrData))
    (a : Str) (t : StreamTag) (hfind : findAddr batch a = none) :
    counterStore (commitBatch st batch) a t = counterStore st a t := by
  unfold counterStore
  rw [commitBatch_addr_not_mem st batch a hfind]

theorem commitBatch_assoc_eq (st : IStore) (batch : List (Str × AddrData))
    (a : Str) (t : StreamTag) (k : Nat) :
    (commitBatch st batch).assoc a t k =
      match findVal (batchWrites st batch) (a, t, k) with
      | some v => some v
      | none => st.assoc a t k := rfl

theorem commitBatch_streamInv (st : IStore) (batch : List (Str × AddrData))
    (hnd : (batch.map Prod.fst).Nodup) (hinv : StreamInv st) :
    StreamInv (commitBatch st batch) := by
  intro a t k
  have hbw := batchWrites_findVal st batch hnd a t k
  match hfind : findAddr batch a with
  | none =>
    have hassoc : (commitBatch st batch).assoc a t k = st.assoc a t k := by
      rw [commitBatch_assoc_eq, hbw]
      simp only [hfind]
    rw [hassoc, commitBatch_counter_not_mem st batch a t hfind]
    exact hinv a t k
  | some d =>
    rw [commitBatch_counter_mem st batch a d t hfind]
    by_cases hin : counterStore st a t < k ∧
        k ≤ counterStore st a t + (deltasFor d t).length
    · have hlt : k - (counterStore st a t + 1) < (deltasFor d t).length := by omega
      match hget : (deltasFor d t).get? (k - (counterStore st a t + 1)) with
      | none =>
        have := List.get?_eq_none.1 hget
        omega
      | some v =>
        have hassoc : (commitBatch st batch).assoc a t k = some v := by
          rw [commitBatch_assoc_eq, hbw]
          simp only [hfind, addrWrites_findVal, if_pos hin, hget]
        rw [hassoc]
        simp only [Option.isSome_some, true_iff]
        omega
    · have hassoc : (commitBatch st batch).assoc a t k = st.assoc a t k := by
        rw [commitBatch_assoc_eq, hbw]
        simp only [hfind, addrWrites_findVal, if_neg hin]
      rw [hassoc, hinv a t k]
      constructor
      · intro h
        exact ⟨h.1, by omega⟩
      · intro h
        refine ⟨h.1, ?_⟩
        omega

theorem commitBatch_appends (st : IStore) (batch : List (Str × AddrData))
    (hnd : (batch.map Prod.fst).Nodup) (a : Str) (d : AddrData) (t : StreamTag)
    (hfind : findAddr batch a = some d) (j : Nat)
    (hj : j < (deltasFor d t).length) :
    (commitBatch st batch).assoc a t (counterStore st a t + 1 + j) =
      (deltasFor d t).get? j := by
  rw [commitBatch_assoc_eq, batchWrites_findVal st batch hnd]
  simp only [hfind, addrWrites_findVal]
  rw [if_pos (by omega)]
  have hk : counterStore st a t + 1 + j - (counterStore st a t + 1) = j := by omega
  rw [hk]
  match hget : (deltasFor d t).get? j with
  | none =>
    have := List.get?_eq_none.1 hget
    omega
  | some v => rfl

theorem streamInv_empty : StreamInv emptyIStore := by
  intro a t k
  simp only [emptyIStore, counterStore]
  simp
  omega

theorem findAddr_mem (batch : List (Str × AddrData)) (a : Str) (d : AddrData)
    (hnd : (batch.map Prod.fst).Nodup) :
    findAddr batch a = some d ↔ (a, d) ∈ batch := by
  induction batch with
  | nil => simp [findAddr]
  | cons p rest ih =>
    obtain ⟨a', d'⟩ := p
    simp only [List.map_cons, List.nodup_cons] at hnd
    simp only [findAddr, List.mem_cons]
    by_cases ha : a' = a
    · subst ha
      rw [if_pos rfl]
      constructor
      · intro h
        injection h with h
        exact Or.inl (by rw [h])
      · intro h
        rcases h with h | h
        · injection h with h1 h2
          rw [h2]
        · exact absurd (List.mem_map_of_mem Prod.fst h) hnd.1
    · rw [if_neg ha]
      rw [ih hnd.2]
      constructor
      · exact Or.inr
      · intro h
        rcases h with h | h
        · injection h with h1 h2
          exact absurd h1.symm ha
        · exact h

theorem dash_not_mem_tagStr (t : StreamTag) : dashCh ∉ tagStr t := by
  cases t <;> decide

theorem dashCh_not_mem_natStr (n : Nat) : dashCh ∉ natStr n := dash_not_mem_natStr n

/-- The flat keys `<addr>-<tag>-<n>` written by `update_bulk_db` are in
bijection with the structured `(addr, tag, n)` triples used by `IStore`,
for the dash-free hex addresses the system stores. -/
theorem assocKeyStr_inj (a1 a2 : Str) (t1 t2 : StreamTag) (n1 n2 : Nat)
    (h1 : dashCh ∉ a1) (h2 : dashCh ∉ a2)
    (heq : assocKeyStr a1 t1 n1 = assocKeyStr a2 t2 n2) :
    a1 = a2 ∧ t1 = t2 ∧ n1 = n2 := by
  have hs1 : splitSep dashCh (assocKeyStr a1 t1 n1) = [a1, tagStr t1, natStr n1] := by
    unfold assocKeyStr
    rw [splitSep_append_sep _ _ _ h1,
        splitSep_append_sep _ _ _ (dash_not_mem_tagStr t1),
        splitSep_no_sep _ _ (dashCh_not_mem_natStr n1)]
  have hs2 : splitSep dashCh (assocKeyStr a2 t2 n2) = [a2, tagStr t2, natStr n2] := by
    unfold assocKeyStr
    rw [splitSep_append_sep _ _ _ h2,
        splitSep_append_sep _ _ _ (dash_not_mem_tagStr t2),
        splitSep_no_sep _ _ (dashCh_not_mem_natStr n2)]
  rw [heq, hs2] at hs1
  injection hs1 with ha hrest
  injection hrest with ht hrest2
  injection hrest2 with hn
  refine ⟨ha.symm, ?_, ?_⟩
  · cases t1 <;> cases t2 <;> first
      | rfl
      | exact absurd ht (by decide)
  · have : parseNat (natStr n2) = parseNat (natStr n1) := by rw [hn]
    rw [parseNat_natStr, parseNat_natStr] at this
    injection this with h
    exact h.symm

theorem lookupNat_mem {β : Type} (l : List (Nat × β)) (i : Nat) (v : β)
    (h : lookupNat l i = some v) : (i, v) ∈ l := by
  induction l with
  | nil => simp [lookupNat] at h
  | cons p rest ih =>
    obtain ⟨k, v'⟩ := p
    simp only [lookupNat] at h
    by_cases hk : k = i
    · rw [if_pos hk] at h
      injection h with h
      subst h
      subst hk
      exact List.mem_cons_self _ _
    · rw [if_neg hk] at h
      exact List.mem_cons_of_mem _ (ih h)

theorem lookupStr_insertReplace_self (l : List (Str × BTok)) (k : Str) (v : BTok) :
    lookupStr (insertReplace l k v) k = some v := by
  induction l with
  | nil => simp [insertReplace, lookupStr]
  | cons p rest ih =>
    obtain ⟨k', v'⟩ := p
    simp only [insertReplace]
    by_cases hk : k' = k
    · rw [if_pos hk]
      simp only [lookupStr, if_pos hk]
    · rw [if_neg hk]
      simp only [lookupStr, if_neg hk]
      exact ih

theorem lookupStr_insertReplace_mono (l : List (Str × BTok)) (k q : Str) (v : BTok)
    (h : (lookupStr l q).isSome) : (lookupStr (insertReplace l k v) q).isSome := by
  induction l with
  | nil => simp [lookupStr] at h
  | cons p rest ih =>
    obtain ⟨k', v'⟩ := p
    simp only [insertReplace]
    by_cases hk : k' = k
    · rw [if_pos hk]
      simp only [lookupStr] at h ⊢
      by_cases hq : k' = q
      · rw [if_pos hq]; rfl
      · rw [if_neg hq] at h ⊢; exact h
    · rw [if_neg hk]
      simp only [lookupStr] at h ⊢
      by_cases hq : k' = q
      · rw [if_pos hq] at h ⊢; exact h
      · rw [if_neg hq] at h ⊢; exact ih h

theorem lookupStr_append_left {β : Type} (l l' : List (Str × β)) (q : Str)
    (h : (lookupStr l q).isSome) : (lookupStr (l ++ l') q).isSome := by
  induction l with
  | nil => simp [lookupStr] at h
  | cons p rest ih =>
    obtain ⟨k', v'⟩ := p
    simp only [lookupStr, List.cons_append] at h ⊢
    by_cases hq : k' = q
    · rw [if_pos hq] at h ⊢; exact h
    · rw [if_neg hq] at h ⊢; exact ih h

theorem expandTokensAux_spec (st : TStore) (tokens : List (Str × BTok)) :
    ∀ (txs : List TokenTxRec) (full : List (Str × BTok))
      (filtered : List (Nat × TokenTxRec)) (highest : Nat)
      (full' : List (Str × BTok)) (filtered' : List (Nat × TokenTxRec))
      (highest' : Nat),
      expandTokensAux st tokens txs full filtered highest =
        some (full', filtered', highest') →
      (∀ k, (lookupStr full k).isSome → (lookupStr full' k).isSome) ∧
      (∀ p ∈ filtered', p ∈ filtered ∨
        ((lookupStr full' p.2.tokenAddress).isSome ∧
         ((st.tokenRec p.2.tokenAddress).isSome ∨
          (lookupStr tokens p.2.tokenAddress).isSome))) := by
  intro txs
  induction txs with
  | nil =>
    intro full filtered highest full' filtered' highest' h
    simp only [expandTokensAux, Option.some.injEq, Prod.mk.injEq] at h
    obtain ⟨h1, h2, h3⟩ := h
    subst h1
    subst h2
    exact ⟨fun k hk => hk, fun p hp => Or.inl hp⟩
  | cons tx rest ih =>
    intro full filtered highest full' filtered' highest' h
    simp only [expandTokensAux] at h
    match hst : st.tokenRec tx.tokenAddress with
    | some raw =>
      simp only [hst] at h
      match hdec : decode_token raw with
      | none => simp [hdec] at h
      | some dbTok =>
        simp only [hdec] at h
        obtain ⟨hmono, hfil⟩ := ih _ _ _ _ _ _ h
        constructor
        · intro k hk
          exact hmono k (lookupStr_insertReplace_mono _ _ _ _ hk)
        · intro p hp
          rcases hfil p hp with hin | hin
          · rcases List.mem_append.1 hin with hin | hin
            · exact Or.inl hin
            · simp only [List.mem_singleton] at hin
              subst hin
              refine Or.inr ⟨?_, Or.inl (by rw [hst]; rfl)⟩
              exact hmono _ (by rw [lookupStr_insertReplace_self]; rfl)
          · exact Or.inr hin
    | none =>
      simp only [hst] at h
      match htok : lookupStr tokens tx.tokenAddress with
      | some bt =>
        simp only [htok] at h
        obtain ⟨hmono, hfil⟩ := ih _ _ _ _ _ _ h
        constructor
        · intro k hk
          exact hmono k (lookupStr_insertReplace_mono _ _ _ _ hk)
        · intro p hp
          rcases hfil p hp with hin | hin
          · rcases List.mem_append.1 hin with hin | hin
            · exact Or.inl hin
            · simp only [List.mem_singleton] at hin
              subst hin
              refine Or.inr ⟨?_, Or.inr (by rw [htok]; rfl)⟩
              exact hmono _ (by rw [lookupStr_insertReplace_self]; rfl)
          · exact Or.inr hin
      | none =>
        simp only [htok] at h
        exact ih _ _ _ _ _ _ h

theorem lookupStr_addMissing_mono (l : List (Str × BTok)) :
    ∀ (acc : List (Str × BTok)) (k : Str), (lookupStr acc k).isSome →
      (lookupStr
        (l.foldl (fun acc p => if (lookupStr acc p.1).isSome then acc else acc ++ [p])
          acc) k).isSome := by
  induction l with
  | nil => intro acc k h; exact h
  | cons p rest ih =>
    intro acc k h
    simp only [List.foldl_cons]
    by_cases hp : (lookupStr acc p.1).isSome
    · rw [if_pos hp]
      exact ih acc k h
    · rw [if_neg hp]
      exact ih _ k (lookupStr_append_left _ _ _ h)

theorem commitTokens_inv (st : TStore) (full : List (Str × BTok))
    (filtered : List (Nat × TokenTxRec))
    (hfull : ∀ p ∈ filtered, (lookupStr full p.2.tokenAddress).isSome)
    (hinv : TokenInv st) : TokenInv (commitTokens st full filtered) := by
  intro i tx h
  have hrec : ∀ a, (st.tokenRec a).isSome →
      ((commitTokens st full filtered).tokenRec a).isSome := by
    intro a ha
    show (match lookupStr full a with
          | some bt => some (encode_token
              { bt.tok with txIndex := bt.tok.txIndex + bt.transactions.length })
          | none => st.tokenRec a).isSome
    match lookupStr full a with
    | some bt => rfl
    | none => exact ha
  have hrecFull : ∀ a, (lookupStr full a).isSome →
      ((commitTokens st full filtered).tokenRec a).isSome := by
    intro a ha
    show (match lookupStr full a with
          | some bt => some (encode_token
              { bt.tok with txIndex := bt.tok.txIndex + bt.transactions.length })
          | none => st.tokenRec a).isSome
    match hl : lookupStr full a with
    | some bt => rfl
    | none => rw [hl] at ha; exact absurd ha (by simp)
  have htx : (commitTokens st full filtered).tokenTx i = some tx → 
      lookupNat filtered i = some tx ∨ st.tokenTx i = some tx := by
    intro hh
    revert hh
    show (match lookupNat filtered i with
          | some tx' => some tx'
          | none => st.tokenTx i) = some tx → _
    match hl : lookupNat filtered i with
    | some tx' =>
      intro hh
      injection hh with hh
      subst hh
      exact Or.inl rfl
    | none =>
      intro hh
      exact Or.inr hh
  rcases htx h with hl | hl
  · exact hrecFull _ (hfull (i, tx) (lookupNat_mem _ _ _ hl))
  · exact hrec _ (hinv i tx hl)

theorem collectIdxs_mem (tstart tend limit : Int) :
    ∀ (entries : List (Str × Str)) (counter : Nat) (l : List Nat),
      collectIdxs tstart tend limit entries counter = some l →
      ∀ bi ∈ l, ∃ k v ts, (k, v) ∈ entries ∧ parseNat v = some bi ∧
        parseNat (lastDashComp k) = some ts ∧
        tstart ≤ (ts : Int) ∧ (ts : Int) ≤ tend := by
  intro entries
  induction entries with
  | nil =>
    intro counter l h
    simp [collectIdxs] at h
  | cons kv rest ih =>
    intro counter l h bi hbi
    obtain ⟨k, v⟩ := kv
    simp only [collectIdxs] at h
    match hts : parseNat (lastDashComp k), hbv : parseNat v with
    | some ts, some bi' =>
      simp only [hts, hbv] at h
      by_cases h1 : (ts : Int) < tstart
      · rw [if_pos h1] at h
        obtain ⟨k', v', ts', hmem, hrest⟩ := ih counter l h bi hbi
        exact ⟨k', v', ts', List.mem_cons_of_mem _ hmem, hrest⟩
      · rw [if_neg h1] at h
        by_cases h2 : tend < (ts : Int)
        · rw [if_pos h2] at h
          injection h with h
          subst h
          simp at hbi
        · rw [if_neg h2] at h
          by_cases h3 : 0 < limit ∧ limit ≤ ((counter : Int) + 1)
          · rw [if_pos h3] at h
            injection h with h
            subst h
            simp only [List.mem_singleton] at hbi
            subst hbi
            exact ⟨k, v, ts, List.mem_cons_self _ _, hbv, hts, by omega, by omega⟩
          · rw [if_neg h3] at h
            match hrec : collectIdxs tstart tend limit rest (counter + 1) with
            | none => rw [hrec] at h; exact absurd h (by simp)
            | some l' =>
              rw [hrec] at h
              simp only [Option.map_some', Option.some.injEq] at h
              subst h
              rcases List.mem_cons.1 hbi with hbi | hbi
              · subst hbi
                exact ⟨k, v, ts, List.mem_cons_self _ _, hbv, hts, by omega, by omega⟩
              · obtain ⟨k', v', ts', hmem, hrest⟩ := ih (counter + 1) l' hrec bi hbi
                exact ⟨k', v', ts', List.mem_cons_of_mem _ hmem, hrest⟩
    | some ts, none => simp [hts, hbv] at h
    | none, some bi' => simp [hts, hbv] at h
    | none, none => simp [hts, hbv] at h

theorem collectIdxs_length (tstart tend limit : Int) :
    ∀ (entries : List (Str × Str)) (counter : Nat) (l : List Nat),
      collectIdxs tstart tend limit entries counter = some l →
      0 < limit →
      l.length ≤ max (limit - counter).toNat 1 := by
  intro entries
  induction entries with
  | nil =>
    intro counter l h
    simp [collectIdxs] at h
  | cons kv rest ih =>
    intro counter l h hpos
    obtain ⟨k, v⟩ := kv
    simp only [collectIdxs] at h
    match hts : parseNat (lastDashComp k), hbv : parseNat v with
    | some ts, some bi' =>
      simp only [hts, hbv] at h
      by_cases h1 : (ts : Int) < tstart
      · rw [if_pos h1] at h
        exact ih counter l h hpos
      · rw [if_neg h1] at h
        by_cases h2 : tend < (ts : Int)
        · rw [if_pos h2] at h
          injection h with h
          subst h
          simp
        · rw [if_neg h2] at h
          by_cases h3 : 0 < limit ∧ limit ≤ ((counter : Int) + 1)
          · rw [if_pos h3] at h
            injection h with h
            subst h
            simp
          · rw [if_neg h3] at h
            match hrec : collectIdxs tstart tend limit rest (counter + 1) with
            | none => rw [hrec] at h; exact absurd h (by simp)
            | some l' =>
              rw [hrec] at h
              simp only [Option.map_some', Option.some.injEq] at h
              subst h
              have := ih (counter + 1) l' hrec hpos
              simp only [List.length_cons]
              omega
    | some ts, none => simp [hts, hbv] at h
    | none, some bi' => simp [hts, hbv] at h
    | none, none => simp [hts, hbv] at h

theorem materializeBlock_number (st : KVStore) (i : Nat) (b : HBlock)
    (h : materializeBlock st i = some b) : b.number = i := by
  unfold materializeBlock at h
  match hk : kvGet st (blockKey i) with
  | none => simp [hk] at h
  | some raw =>
    simp only [hk] at h
    match hd : decode_block raw with
    | none => simp [hd] at h
    | some blk =>
      simp only [hd] at h
      by_cases he : splitSep plusCh blk.transactions = [[]]
      · rw [if_pos he] at h
        injection h with h
        rw [← h]
      · rw [if_neg he] at h
        match hm : (splitSep plusCh blk.transactions).mapM (getTransactionByHash st) with
        | none => rw [hm] at h; exact absurd h (by simp)
        | some txs =>
          rw [hm] at h
          simp only [Option.map_some', Option.some.injEq] at h
          rw [← h]

theorem materializeRange_numbers (st : KVStore) :
    ∀ (n lo : Nat) (bs : List HBlock), materializeRange st lo n = some bs →
      bs.map HBlock.number = List.range' lo n := by
  intro n
  induction n with
  | zero =>
    intro lo bs h
    injection h with h
    subst h
    rfl
  | succ n ih =>
    intro lo bs h
    simp only [materializeRange] at h
    match hb : materializeBlock st lo, hr : materializeRange st (lo + 1) n with
    | some b, some rest =>
      rw [hb, hr] at h
      injection h with h
      subst h
      simp only [List.map_cons, ih (lo + 1) rest hr]
      rw [List.range'_succ, materializeBlock_number st lo b hb]
    | some b, none => rw [hb, hr] at h; exact absurd h (by simp)
    | none, some rest => rw [hb, hr] at h; exact absurd h (by simp)
    | none, none => rw [hb, hr] at h; exact absurd h (by simp)

theorem range'_sorted_lt : ∀ (n s : Nat), List.Sorted (· < ·) (List.range' s n) := by
  intro n
  induction n with
  | zero => intro s; simp
  | succ n ih =>
    intro s
    rw [List.range'_succ]
    refine List.sorted_cons.2 ⟨?_, ih (s + 1)⟩
    intro b hb
    have := List.mem_range'_1.1 hb
    omega

theorem sorted_head?_le (l : List Nat) (hs : List.Sorted (· ≤ ·) l) (x : Nat)
    (hx : x ∈ l) (y : Nat) (hy : l.head? = some y) : y ≤ x := by
  match l with
  | [] => simp at hx
  | a :: rest =>
    injection hy with hy
    subst hy
    rcases List.mem_cons.1 hx with hx | hx
    · omega
    · exact List.rel_of_sorted_cons hs x hx

theorem sorted_le_getLast? (l : List Nat) :
    List.Sorted (· ≤ ·) l → ∀ x ∈ l, ∀ y, l.getLast? = some y → x ≤ y := by
  induction l with
  | nil => intro _ x hx; simp at hx
  | cons a rest ih =>
    intro hs x hx y hy
    cases rest with
    | nil =>
      simp only [List.getLast?_singleton] at hy
      injection hy with hy
      simp only [List.mem_singleton] at hx
      omega
    | cons b t =>
      rw [List.getLast?_cons_cons] at hy
      have hs' := (List.sorted_cons.1 hs).2
      rcases List.mem_cons.1 hx with hx | hx
      · subst hx
        have hb : b ≤ y := ih hs' b (List.mem_cons_self _ _) y hy
        have hab : x ≤ b := (List.sorted_cons.1 hs).1 b (List.mem_cons_self _ _)
        omega
      · exact ih hs' x hx y hy

theorem filterLoop_found (st : KVStore) (tF tT vF vT limit : Int) :
    ∀ (vals : List Str) (found : Nat) (l : List ATx) (found' : Nat),
      filterLoop st tF tT vF vT limit vals found = some (l, found') →
      found' = found + l.length := by
  intro vals
  induction vals with
  | nil =>
    intro found l found' h
    simp only [filterLoop, Option.some.injEq, Prod.mk.injEq] at h
    obtain ⟨h1, h2⟩ := h
    subst h1
    subst h2
    rfl
  | cons v rest ih =>
    intro found l found' h
    simp only [filterLoop] at h
    split at h
    · simp only [Option.some.injEq, Prod.mk.injEq] at h
      obtain ⟨h1, h2⟩ := h
      subst h1
      subst h2
      rfl
    · split at h
      · split at h
        · split at h
          · split at h
            · exact absurd h (by simp)
            · exact absurd h (by simp)
            · rename_i q hq
              match hrec : filterLoop st tF tT vF vT limit rest (found + 1) with
              | none => rw [hrec] at h; exact absurd h (by simp)
              | some (l', f') =>
                rw [hrec] at h
                simp only [Option.map_some', Option.some.injEq, Prod.mk.injEq] at h
                obtain ⟨h1, h2⟩ := h
                subst h1
                subst h2
                have := ih (found + 1) l' f' hrec
                simp only [List.length_cons]
                omega
          · have := ih found l found' h
            omega
        · exact absurd h (by simp)
      · exact absurd h (by simp)

theorem filterLoop_bound (st : KVStore) (tF tT vF vT limit : Int) :
    ∀ (vals : List Str) (found : Nat) (l : List ATx) (found' : Nat),
      filterLoop st tF tT vF vT limit vals found = some (l, found') →
      (found' : Int) ≤ max limit (found : Int) := by
  intro vals
  induction vals with
  | nil =>
    intro found l found' h
    simp only [filterLoop, Option.some.injEq, Prod.mk.injEq] at h
    obtain ⟨h1, h2⟩ := h
    subst h2
    omega
  | cons v rest ih =>
    intro found l found' h
    simp only [filterLoop] at h
    split at h
    · rename_i hlim
      simp only [Option.some.injEq, Prod.mk.injEq] at h
      obtain ⟨h1, h2⟩ := h
      subst h2
      omega
    · rename_i hlim
      split at h
      · split at h
        · split at h
          · split at h
            · exact absurd h (by simp)
            · exact absurd h (by simp)
            · rename_i q hq
              match hrec : filterLoop st tF tT vF vT limit rest (found + 1) with
              | none => rw [hrec] at h; exact absurd h (by simp)
              | some (l', f') =>
                rw [hrec] at h
                simp only [Option.map_some', Option.some.injEq, Prod.mk.injEq] at h
                obtain ⟨h1, h2⟩ := h
                subst h2
                have := ih (found + 1) l' f' hrec
                omega
          · have := ih found l found' h
            omega
        · exact absurd h (by simp)
      · exact absurd h (by simp)

theorem filterLoop_sound (st : KVStore) (tF tT vF vT limit : Int) :
    ∀ (vals : List Str) (found : Nat) (l : List ATx) (found' : Nat),
      filterLoop st tF tT vF vT limit vals found = some (l, found') →
      ∀ x ∈ l, ∃ v ∈ vals, passesFilter tF tT vF vT v = true ∧
        hydrateEntry st v = some x := by
  intro vals
  induction vals with
  | nil =>
    intro found l found' h
    simp only [filterLoop, Option.some.injEq, Prod.mk.injEq] at h
    obtain ⟨h1, h2⟩ := h
    subst h1
    intro x hx
    simp at hx
  | cons v rest ih =>
    intro found l found' h
    simp only [filterLoop] at h
    split at h
    · simp only [Option.some.injEq, Prod.mk.injEq] at h
      obtain ⟨h1, h2⟩ := h
      subst h1
      intro x hx
      simp at hx
    · split at h
      · rename_i h0 valS tsS hsp
        split at h
        · rename_i tn vn htn hvn
          split at h
          · rename_i hrange
            split at h
            · exact absurd h (by simp)
            · exact absurd h (by simp)
            · rename_i q hq
              match hrec : filterLoop st tF tT vF vT limit rest (found + 1) with
              | none => rw [hrec] at h; exact absurd h (by simp)
              | some (l', f') =>
                rw [hrec] at h
                simp only [Option.map_some', Option.some.injEq, Prod.mk.injEq] at h
                obtain ⟨h1, h2⟩ := h
                subst h1
                intro x hx
                rcases List.mem_cons.1 hx with hx | hx
                · subst hx
                  refine ⟨v, List.mem_cons_self _ _, ?_, ?_⟩
                  · unfold passesFilter
                    rw [hsp]
                    simp only [htn, hvn]
                    exact decide_eq_true hrange
                  · unfold hydrateEntry
                    rw [hsp]
                    simp only [hq]
                · obtain ⟨v', hv', hrest⟩ := ih (found + 1) l' f' hrec x hx
                  exact ⟨v', List.mem_cons_of_mem _ hv', hrest⟩
          · intro x hx
            obtain ⟨v', hv', hrest⟩ := ih found l found' h x hx
            exact ⟨v', List.mem_cons_of_mem _ hv', hrest⟩
        · exact absurd h (by simp)
      · exact absurd h (by simp)

theorem filterLoop_complete (st : KVStore) (tF tT vF vT limit : Int) :
    ∀ (vals : List Str) (found : Nat) (l : List ATx) (found' : Nat),
      filterLoop st tF tT vF vT limit vals found = some (l, found') →
      (found : Int) + ((vals.filter (passesFilter tF tT vF vT)).length : Int) ≤ limit →
      l = (vals.filter (passesFilter tF tT vF vT)).filterMap (hydrateEntry st) ∧
      (∀ v ∈ vals, passesFilter tF tT vF vT v = true → (hydrateEntry st v).isSome) := by
  intro vals
  induction vals with
  | nil =>
    intro found l found' h hcnt
    simp only [filterLoop, Option.some.injEq, Prod.mk.injEq] at h
    obtain ⟨h1, h2⟩ := h
    subst h1
    exact ⟨rfl, by intro v hv; simp at hv⟩
  | cons v rest ih =>
    intro found l found' h hcnt
    simp only [filterLoop] at h
    split at h
    · rename_i hlim
      simp only [Option.some.injEq, Prod.mk.injEq] at h
      obtain ⟨h1, h2⟩ := h
      subst h1
      have hcount : ((v :: rest).filter (passesFilter tF tT vF vT)).length = 0 := by omega
      have hnil := List.length_eq_zero.1 hcount
      constructor
      · rw [hnil]
        rfl
      · intro v' hv' hp
        have : v' ∈ (v :: rest).filter (passesFilter tF tT vF vT) :=
          List.mem_filter.2 ⟨hv', hp⟩
        rw [hnil] at this
        simp at this
    · rename_i hlim
      split at h
      · rename_i h0 valS tsS hsp
        split at h
        · rename_i tn vn htn hvn
          split at h
          · rename_i hrange
            have hpass : passesFilter tF tT vF vT v = true := by
              unfold passesFilter
              rw [hsp]
              simp only [htn, hvn]
              exact decide_eq_true hrange
            split at h
            · exact absurd h (by simp)
            · exact absurd h (by simp)
            · rename_i q hq
              have hhyd : hydrateEntry st v = some (dropInternal q) := by
                unfold hydrateEntry
                rw [hsp]
                simp only [hq]
              match hrec : filterLoop st tF tT vF vT limit rest (found + 1) with
              | none => rw [hrec] at h; exact absurd h (by simp)
              | some (l', f') =>
                rw [hrec] at h
                simp only [Option.map_some', Option.some.injEq, Prod.mk.injEq] at h
                obtain ⟨h1, h2⟩ := h
                subst h1
                have hcnt' : ((found : Nat) + 1 : Int) +
                    ((rest.filter (passesFilter tF tT vF vT)).length : Int) ≤ limit := by
                  rw [List.filter_cons, if_pos hpass] at hcnt
                  simp only [List.length_cons] at hcnt
                  push_cast at hcnt ⊢
                  omega
                obtain ⟨ihl, ihs⟩ := ih (found + 1) l' f' hrec (by exact_mod_cast hcnt')
                constructor
                · rw [List.filter_cons, if_pos hpass, List.filterMap_cons, hhyd, ihl]
                · intro v' hv' hp'
                  rcases List.mem_cons.1 hv' with hv' | hv'
                  · subst hv'
                    rw [hhyd]
                    rfl
                  · exact ihs v' hv' hp'
          · rename_i hrange
            have hpass : passesFilter tF tT vF vT v = false := by
              unfold passesFilter
              rw [hsp]
              simp only [htn, hvn]
              exact decide_eq_false hrange
            have hcnt' : ((found : Nat) : Int) +
                ((rest.filter (passesFilter tF tT vF vT)).length : Int) ≤ limit := by
              rw [List.filter_cons, if_neg (by rw [hpass]; simp)] at hcnt
              exact hcnt
            obtain ⟨ihl, ihs⟩ := ih found l found' h hcnt'
            constructor
            · rw [List.filter_cons, if_neg (by rw [hpass]; simp), ihl]
            · intro v' hv' hp'
              rcases List.mem_cons.1 hv' with hv' | hv'
              · subst hv'
                rw [hpass] at hp'
                exact absurd hp' (by simp)
              · exact ihs v' hv' hp'
        · exact absurd h (by simp)
      · exact absurd h (by simp)

theorem filterMap_length_of_isSome {α β : Type} (f : α → Option β) (L : List α)
    (h : ∀ v ∈ L, (f v).isSome) : (L.filterMap f).length = L.length := by
  induction L with
  | nil => rfl
  | cons x rest ih =>
    have hx := h x (List.mem_cons_self _ _)
    match hf : f x with
    | none => rw [hf] at hx; exact absurd hx (by simp)
    | some y =>
      rw [List.filterMap_cons, hf]
      simp only [List.length_cons]
      rw [ih (fun v hv => h v (List.mem_cons_of_mem _ hv))]

/-! ### Claim theorems -/

/-- C1: After every committed ingest batch, for every stored Address record
and each of its seven counters, the associated-data keys present under that
address and tag are exactly indices 1 through the counter value — no gaps,
no overshoots — starting from the empty store; and each batch appends its
deltas at indices `old+1 .. old+len(deltas)` while setting the counter to
`old+len(deltas)`. -/
theorem c1_counter_streams :
    StreamInv emptyIStore ∧
    (∀ (st : IStore) (batch : List (Str × AddrData)),
      (batch.map Prod.fst).Nodup → StreamInv st →
      StreamInv (commitBatch st batch)) ∧
    (∀ (st : IStore) (batch : List (Str × AddrData)) (a : Str) (d : AddrData),
      (batch.map Prod.fst).Nodup → (a, d) ∈ batch →
      ∀ t : StreamTag,
        counterStore (commitBatch st batch) a t =
          counterStore st a t + (deltasFor d t).length ∧
        ∀ j, j < (deltasFor d t).length →
          (commitBatch st batch).assoc a t (counterStore st a t + 1 + j) =
            (deltasFor d t).get? j) := by
  refine ⟨streamInv_empty, commitBatch_streamInv, ?_⟩
  intro st batch a d hnd hmem t
  have hfind : findAddr batch a = some d := (findAddr_mem batch a d hnd).2 hmem
  exact ⟨commitBatch_counter_mem st batch a d t hfind,
         fun j hj => commitBatch_appends st batch hnd a d t hfind j hj⟩

/-- C1 witness: one batch over the empty store, one address with one new
input transaction. -/
theorem c1_witness :
    StreamInv (commitBatch emptyIStore c1batch) ∧
    counterStore (commitBatch emptyIStore c1batch) (("0xa").data) StreamTag.inTx =
      counterStore emptyIStore (("0xa").data) StreamTag.inTx +
        (deltasFor c1data StreamTag.inTx).length ∧
    (commitBatch emptyIStore c1batch).assoc (("0xa").data) StreamTag.inTx
        (counterStore emptyIStore (("0xa").data) StreamTag.inTx + 1 + 0) =
      (deltasFor c1data StreamTag.inTx).get? 0 :=
  ⟨c1_counter_streams.2.1 emptyIStore c1batch (by decide) streamInv_empty,
   (c1_counter_streams.2.2 emptyIStore c1batch (("0xa").data) c1data (by decide)
      (by decide) StreamTag.inTx).1,
   (c1_counter_streams.2.2 emptyIStore c1batch (("0xa").data) c1data (by decide)
      (by decide) StreamTag.inTx).2 0 (by decide)⟩

/-- C2 counterexample: the transaction codec is not invertible.  When `from`
is `None` the encoder emits the literal characters `/0` without a field
separator (a slip for `\0`), so decoding its own output fails. -/
theorem c2_counterexample : decode_transaction (encode_transaction c2tx) = none := by
  decide

/-- C2 (amended): for the block, address, token, token-transfer and
internal-transaction record types the codec round-trips both ways on
well-formed (NUL-free) records; the transaction codec is excluded, since
decoding re-parses `logs` into structured entries and a `None` `from`/`to`
corrupts the field alignment. -/
theorem c2_roundtrip :
    (∀ a : AddrRec, WFaddrRec a →
      decode_address (encode_address a) = some a ∧
      (decode_address (encode_address a)).map encode_address =
        some (encode_address a)) ∧
    (∀ b : EthBlock, WFblock b →
      decode_block (encode_block b) = some b ∧
      (decode_block (encode_block b)).map encode_block = some (encode_block b)) ∧
    (∀ t : TokenRec, WFtoken t →
      decode_token (encode_token t) = some t ∧
      (decode_token (encode_token t)).map encode_token = some (encode_token t)) ∧
    (∀ t : TokenTxRec, WFtokenTx t →
      decode_token_tx (encode_token_tx t) = some t ∧
      (decode_token_tx (encode_token_tx t)).map encode_token_tx =
        some (encode_token_tx t)) ∧
    (∀ t : IntTxRec, WFintTx t →
      decode_internal_tx (encode_internal_tx t) = some t ∧
      (decode_internal_tx (encode_internal_tx t)).map encode_internal_tx =
        some (encode_internal_tx t)) := by
  refine ⟨fun a h => ⟨decode_encode_address a h, ?_⟩,
          fun b h => ⟨decode_encode_block b h, ?_⟩,
          fun t h => ⟨decode_encode_token t h, ?_⟩,
          fun t h => ⟨decode_encode_token_tx t h, ?_⟩,
          fun t h => ⟨decode_encode_internal_tx t h, ?_⟩⟩
  · rw [decode_encode_address a h]; rfl
  · rw [decode_encode_block b h]; rfl
  · rw [decode_encode_token t h]; rfl
  · rw [decode_encode_token_tx t h]; rfl
  · rw [decode_encode_internal_tx t h]; rfl

/-- C2 witness: round trips evaluated on concrete records of all five
invertible types. -/
theorem c2_witness :
    decode_address (encode_address c2addr) = some c2addr ∧
    decode_block (encode_block c2block) = some c2block ∧
    decode_token (encode_token c2token) = some c2token ∧
    decode_token_tx (encode_token_tx c2tokenTx) = some c2tokenTx ∧
    decode_internal_tx (encode_internal_tx c2intTx) = some c2intTx :=
  ⟨(c2_roundtrip.1 c2addr (by unfold WFaddrRec; decide)).1,
   (c2_roundtrip.2.1 c2block (by unfold WFblock; decide)).1,
   (c2_roundtrip.2.2.1 c2token (by unfold WFtoken; decide)).1,
   (c2_roundtrip.2.2.2.1 c2tokenTx (by unfold WFtokenTx; decide)).1,
   (c2_roundtrip.2.2.2.2 c2intTx (by unfold WFintTx; decide)).1⟩

/-- C3: every token transfer committed by a batch has a token record under
its token address (written in the same or an earlier batch, and never
deleted), and a transfer whose token address is unknown both to the batch's
tokens and to the store is dropped: it receives no global token-transfer
index. -/
theorem c3_token_filter :
    ∀ (st : TStore) (tokens : List (Str × BTok)) (txs : List TokenTxRec)
      (highest : Nat) (full : List (Str × BTok))
      (filtered : List (Nat × TokenTxRec)) (highest' : Nat),
      expandTokens st tokens txs highest = some (full, filtered, highest') →
      TokenInv st →
      TokenInv (commitTokens st full filtered) ∧
      (∀ tx ∈ txs, st.tokenRec tx.tokenAddress = none →
        lookupStr tokens tx.tokenAddress = none →
        ∀ i, (i, tx) ∉ filtered) := by
  intro st tokens txs highest full filtered highest' h hinv
  unfold expandTokens at h
  match haux : expandTokensAux st tokens txs [] [] highest with
  | none => simp [haux] at h
  | some out =>
    obtain ⟨f0, fil, h0⟩ := out
    simp only [haux, Option.map_some', Option.some.injEq, Prod.mk.injEq] at h
    obtain ⟨hfull, hfil, hh⟩ := h
    subst hfil
    obtain ⟨hmono, hspec⟩ :=
      expandTokensAux_spec st tokens txs [] [] highest f0 fil h0 haux
    constructor
    · refine commitTokens_inv _ _ _ ?_ hinv
      intro p hp
      rcases hspec p hp with hin | hin
      · simp at hin
      · rw [← hfull]
        exact lookupStr_addMissing_mono tokens f0 p.2.tokenAddress hin.1
    · intro tx htx hstNone htokNone i hmem
      rcases hspec (i, tx) hmem with hin | hin
      · simp at hin
      · rcases hin.2 with hs | hs
        · rw [hstNone] at hs
          exact absurd hs (by simp)
        · rw [htokNone] at hs
          exact absurd hs (by simp)

/-- C3 witness: a batch with one transfer of a batch-known token and one
transfer of an unknown token; the former is indexed and covered by a token
record, the latter is dropped. -/
theorem c3_witness :
    TokenInv (commitTokens c3store c3full c3filtered) ∧
    (∀ i, (i, c3txUnknown) ∉ c3filtered) :=
  ⟨(c3_token_filter c3store c3tokens [c3tx, c3txUnknown] 0 c3full c3filtered 1
      (by decide) (fun i tx h => Option.noConfusion h)).1,
   fun i => (c3_token_filter c3store c3tokens [c3tx, c3txUnknown] 0 c3full
      c3filtered 1 (by decide) (fun i tx h => Option.noConfusion h)).2
      c3txUnknown (by decide) rfl rfl i⟩

/-- C4 counterexample: a structural batch does not leave the stored balance
untouched — the committed record's balance is reset to the literal `null`
even though the store held balance `7`. -/
theorem c4_counterexample :
    (c4store.addr (("0xa").data)).map AddrRec.balance = some (("7").data) ∧
    ((commitBatch c4store c4batch).addr (("0xa").data)).map AddrRec.balance =
      some (("null").data) ∧
    (("null").data : Str) ≠ ("7").data := by decide

/-- C4 (amended): a structural ingest batch keeps the stored `code` and
`tokenContract` of an existing record (they take precedence over
batch-derived values) and only increments its counters, but it resets the
`balance` field to the literal `null` (pending re-resolution by the balance
phase) instead of preserving the stored balance. -/
theorem c4_structural_frame :
    ∀ (st : IStore) (batch : List (Str × AddrData)) (a : Str) (d : AddrData)
      (r : AddrRec),
      findAddr batch a = some d → st.addr a = some r →
      (commitBatch st batch).addr a = some (newRecord st a d) ∧
      (newRecord st a d).code = r.code ∧
      (newRecord st a d).tokenContract = r.tokenContract ∧
      (newRecord st a d).balance = ("null").data ∧
      (∀ t, counterOf (newRecord st a d) t =
        counterOf r t + (deltasFor d t).length) := by
  intro st batch a d r hfind hr
  refine ⟨commitBatch_addr_mem st batch a d hfind, ?_, ?_, rfl, ?_⟩
  · show (match st.addr a with | some r => r.code | none => d.code) = r.code
    rw [hr]
  · show (match st.addr a with
          | some r => r.tokenContract
          | none => d.tokenContract.getD (("False").data)) = r.tokenContract
    rw [hr]
  · intro t
    rw [counterOf_newRecord]
    unfold counterStore
    rw [hr]

/-- C4 witness: the frame theorem applied to the concrete store holding a
record with balance `7`. -/
theorem c4_witness :
    (commitBatch c4store c4batch).addr (("0xa").data) =
      some (newRecord c4store (("0xa").data) c4data) ∧
    (newRecord c4store (("0xa").data) c4data).code = c4rec.code ∧
    (newRecord c4store (("0xa").data) c4data).tokenContract = c4rec.tokenContract ∧
    (newRecord c4store (("0xa").data) c4data).balance = ("null").data ∧
    (∀ t, counterOf (newRecord c4store (("0xa").data) c4data) t =
      counterOf c4rec t + (deltasFor c4data t).length) :=
  c4_structural_frame c4store c4batch (("0xa").data) c4data c4rec (by decide)
    (by decide)

theorem sortNat_sorted (l : List Nat) : List.Sorted (· ≤ ·) (sortNat l) :=
  List.sorted_insertionSort _ l

theorem sortNat_perm (l : List Nat) : List.Perm (sortNat l) l :=
  List.perm_insertionSort _ l

/-- C5 counterexample: for the block store with timestamps 10, 50, 20 on
blocks 1, 2, 3, the query over the closed interval `[10, 20]` returns
blocks 1, 2 and 3 — including block 2 whose timestamp 50 lies outside the
interval — because the code materializes the whole numeric range between
the smallest and largest matched block number. -/
theorem c5_counterexample :
    (getBlocksByDatetime c5store 100 10 20).map
        (Option.map (List.map HBlock.number)) = some (some [1, 2, 3]) ∧
    (getBlocksByDatetime c5store 100 10 20).map
        (Option.map (List.map HBlock.timestamp)) =
      some (some [("10").data, ("50").data, ("20").data]) ∧
    ¬((10 : Int) ≤ 50 ∧ (50 : Int) ≤ 20) := by decide

/-- C5 (amended): the lookup seeks to `timestamp-block-<t0>`, walks forward
skipping entries whose decoded timestamp is below `t0` and stopping at the
first entry whose decoded timestamp exceeds `t1` or when `limit` entries are
collected; every collected index comes from an entry whose timestamp lies in
the closed interval, at most `limit` indices are collected, and the returned
list consists of the blocks numbered from the smallest to the largest
collected index inclusive, in ascending block-number order — a superset of
the collected blocks that may include blocks whose timestamps lie outside
the interval. -/
theorem c5_blocks_by_time :
    ∀ (st : KVStore) (limit tstart tend : Int) (bs : List HBlock),
      getBlocksByDatetime st limit tstart tend = some (some bs) →
      ∃ idxs lo hi,
        collectIdxs tstart tend limit
          (st.entries.dropWhile (fun e => strLt e.1 (tsSeekKey tstart))) 0 =
            some idxs ∧
        idxs ≠ [] ∧
        (sortNat idxs).head? = some lo ∧
        (sortNat idxs).getLast? = some hi ∧
        bs.map HBlock.number = List.range' lo (hi + 1 - lo) ∧
        List.Sorted (· < ·) (bs.map HBlock.number) ∧
        (∀ bi ∈ idxs, bi ∈ bs.map HBlock.number) ∧
        (∀ bi ∈ idxs,
          ∃ k v ts,
            (k, v) ∈ st.entries.dropWhile (fun e => strLt e.1 (tsSeekKey tstart)) ∧
            parseNat v = some bi ∧ parseNat (lastDashComp k) = some ts ∧
            tstart ≤ (ts : Int) ∧ (ts : Int) ≤ tend) ∧
        (0 < limit → idxs.length ≤ max limit.toNat 1) := by
  intro st limit tstart tend bs h
  unfold getBlocksByDatetime at h
  match hc : collectIdxs tstart tend limit
      (st.entries.dropWhile (fun e => strLt e.1 (tsSeekKey tstart))) 0 with
  | none => simp [hc] at h
  | some idxs =>
    simp only [hc] at h
    by_cases hnil : idxs = []
    · rw [if_pos hnil] at h
      exact absurd h (by simp)
    · rw [if_neg hnil] at h
      match hlo : (sortNat idxs).head?, hhi : (sortNat idxs).getLast? with
      | some lo, some hi =>
        simp only [hlo, hhi] at h
        match hm : materializeRange st lo (hi + 1 - lo) with
        | none => rw [hm] at h; exact absurd h (by simp)
        | some bs' =>
          rw [hm] at h
          simp only [Option.map_some', Option.some.injEq] at h
          subst h
          have hnum := materializeRange_numbers st (hi + 1 - lo) lo bs' hm
          have hsorted := sortNat_sorted idxs
          refine ⟨idxs, lo, hi, rfl, hnil, hlo, hhi, hnum, ?_, ?_, ?_, ?_⟩
          · rw [hnum]
            exact range'_sorted_lt _ _
          · intro bi hbi
            have hbi' : bi ∈ sortNat idxs := (sortNat_perm idxs).mem_iff.2 hbi
            have h1 : lo ≤ bi := sorted_head?_le _ hsorted bi hbi' lo hlo
            have h2 : bi ≤ hi := sorted_le_getLast? _ hsorted bi hbi' hi hhi
            rw [hnum]
            exact List.mem_range'_1.2 ⟨h1, by omega⟩
          · exact collectIdxs_mem tstart tend limit _ 0 idxs hc
          · intro hpos
            have := collectIdxs_length tstart tend limit _ 0 idxs hc hpos
            simpa using this
      | some lo, none =>
        simp only [hlo, hhi] at h
        exact absurd h (by simp)
      | none, some hi =>
        simp only [hlo, hhi] at h
        exact absurd h (by simp)
      | none, none =>
        simp only [hlo, hhi] at h
        exact absurd h (by simp)

/-- C5 witness: the amended theorem applied to the concrete store. -/
theorem c5_witness :
    ∃ idxs lo hi,
      collectIdxs 10 20 100
        (c5store.entries.dropWhile (fun e => strLt e.1 (tsSeekKey 10))) 0 =
          some idxs ∧
      idxs ≠ [] ∧
      (sortNat idxs).head? = some lo ∧
      (sortNat idxs).getLast? = some hi ∧
      ([c5hb 1 (("10").data), c5hb 2 (("50").data),
        c5hb 3 (("20").data)].map HBlock.number) = List.range' lo (hi + 1 - lo) ∧
      List.Sorted (· < ·)
        ([c5hb 1 (("10").data), c5hb 2 (("50").data),
          c5hb 3 (("20").data)].map HBlock.number) ∧
      (∀ bi ∈ idxs, bi ∈ [c5hb 1 (("10").data), c5hb 2 (("50").data),
          c5hb 3 (("20").data)].map HBlock.number) ∧
      (∀ bi ∈ idxs,
        ∃ k v ts,
          (k, v) ∈ c5store.entries.dropWhile (fun e => strLt e.1 (tsSeekKey 10)) ∧
          parseNat v = some bi ∧ parseNat (lastDashComp k) = some ts ∧
          (10 : Int) ≤ (ts : Int) ∧ (ts : Int) ≤ 20) ∧
      (0 < (100 : Int) → idxs.length ≤ max (100 : Int).toNat 1) :=
  c5_blocks_by_time c5store 100 10 20
    [c5hb 1 (("10").data), c5hb 2 (("50").data), c5hb 3 (("20").data)] (by decide)

/-- C6 counterexample: a read that keeps failing with a `RocksIOError` whose
message does not contain `No such file or directory` is retried without
bound — the counter never advances, so after 1000 loop iterations the
wrapper has neither returned nor surfaced the error. -/
theorem c6_counterexample :
    retryLoop (fun _ => (FetchOutcome.errOther : FetchOutcome (Option Str))) 1000 0 0 =
      FetchResult.spinning :=
  retryLoop_other_spins 1000 0

/-- C6 (amended): a store read whose failures are all missing-file errors
retries at most `RETRY_LIMIT = 10` times and terminates within 11 loop
iterations, either returning a result or surfacing the error; when every
attempt fails with a missing-file error the error is surfaced after the 10
retries.  Reads failing with any other `RocksIOError` retry without bound. -/
theorem c6_retry_bounded :
    (∀ (att : Nat → FetchOutcome (Option Str)) (i : Nat),
      (∀ j, att j ≠ FetchOutcome.errOther) →
      retryLoop att (RETRY_LIMIT + 1) i 0 ≠ FetchResult.spinning) ∧
    (∀ (att : Nat → FetchOutcome (Option Str)) (i : Nat),
      (∀ j, att j = FetchOutcome.errMissing) →
      retryLoop att (RETRY_LIMIT + 1) i 0 = FetchResult.raised) :=
  ⟨fun att i h =>
    retryLoop_no_other_terminates att h (RETRY_LIMIT + 1) 0 i (Nat.zero_le _)
      (by omega),
   fun att i h =>
    retryLoop_all_missing_raises att h (RETRY_LIMIT + 1) 0 i (Nat.zero_le _)
      (by omega)⟩

/-- C6 witness: with every attempt failing as a missing-file error the loop
does not spin and surfaces the error. -/
theorem c6_witness :
    retryLoop (fun _ => (FetchOutcome.errMissing : FetchOutcome (Option Str)))
        (RETRY_LIMIT + 1) 0 0 ≠ FetchResult.spinning ∧
    retryLoop (fun _ => (FetchOutcome.errMissing : FetchOutcome (Option Str)))
        (RETRY_LIMIT + 1) 0 0 = FetchResult.raised :=
  ⟨c6_retry_bounded.1 (fun _ => (FetchOutcome.errMissing : FetchOutcome (Option Str)))
      0 (fun _j h => FetchOutcome.noConfusion h),
   c6_retry_bounded.2 (fun _ => (FetchOutcome.errMissing : FetchOutcome (Option Str)))
      0 (fun _j => rfl)⟩

/-- C7: the logs pass of `gather_receipts` does not produce the documented
`data+topic-topic|…` encoding.  On a transaction with a single log row with
data `d` and topics `a,b` it stores `d+a-bb|` — line 332 appends the last
loop topic again — so decoding yields topics `[a, bb]` instead of the
original `[a, b]`; and because each row overwrites the `logs` field, a
transaction with several log rows keeps only its last row. -/
theorem c7_logs_encoding_bug :
    gatherReceiptsLogs c7rows = ("d+a-bb|").data ∧
    parseLogs (gatherReceiptsLogs c7rows) =
      [⟨("d").data, [("a").data, ("bb").data]⟩] ∧
    specLogsFormat c7rows = ("d+a-b").data ∧
    parseLogs (specLogsFormat c7rows) =
      [⟨("d").data, [("a").data, ("b").data]⟩] ∧
    gatherReceiptsLogs [((("e").data), (("x").data)),
        ((("d").data), (("a,b").data))] = ("d+a-bb|").data ∧
    parseLogs (gatherReceiptsLogs c7rows) ≠
      [⟨("d").data, [("a").data, ("b").data]⟩] := by decide

/-- C8 counterexample: a self-transaction (`from == to == addr`) is recorded
in both the input and the output stream, so the merged result returns the
same transaction twice — the result is not duplicate-free. -/
theorem c8_counterexample :
    getTransactionsOfAddress c8store (("0xa").data) 0 200 0 10 10 =
      some (some [c8atx, c8atx]) ∧
    ¬ List.Nodup [c8atx, c8atx] := by decide

/-- C8 (amended): when the address record is missing the lookup reports
NotFound; otherwise the result is the concatenation of the filtered input
stream and the filtered output stream — so a self-transaction appears twice
— where every returned transaction comes from a stream entry whose
timestamp and value pass the closed-interval filters, at most `limit`
transactions are returned in total across both directions, and when the
limit does not truncate, the result contains exactly the passing entries of
both streams in order. -/
theorem c8_address_transactions :
    (∀ (st : KVStore) (addr : Str) (tF tT vF vT limit : Int),
      kvGet st (addrKey addr) = none →
      getTransactionsOfAddress st addr tF tT vF vT limit = some none) ∧
    (∀ (st : KVStore) (addr : Str) (tF tT vF vT limit : Int) (l : List ATx)
       (raw : Str) (a : AddrRec),
      getTransactionsOfAddress st addr tF tT vF vT limit = some (some l) →
      kvGet st (addrKey addr) = some raw →
      decode_address raw = some a →
      ((l.length : Int) ≤ max limit 0 ∧
       (∀ x ∈ l, ∃ v, (v ∈ inStream st addr a ∨ v ∈ outStream st addr a) ∧
          passesFilter tF tT vF vT v = true ∧ hydrateEntry st v = some x) ∧
       ((((inStream st addr a).filter (passesFilter tF tT vF vT)).length : Int) +
          (((outStream st addr a).filter (passesFilter tF tT vF vT)).length : Int) ≤
            limit →
        l = ((inStream st addr a).filter (passesFilter tF tT vF vT)).filterMap
              (hydrateEntry st) ++
            ((outStream st addr a).filter (passesFilter tF tT vF vT)).filterMap
              (hydrateEntry st)))) := by
  constructor
  · intro st addr tF tT vF vT limit h
    unfold getTransactionsOfAddress
    rw [h]
  · intro st addr tF tT vF vT limit l raw a h hraw hdec
    unfold getTransactionsOfAddress at h
    simp only [hraw, hdec] at h
    match h1 : filterLoop st tF tT vF vT limit (inStream st addr a) 0 with
    | none => simp [h1] at h
    | some p1 =>
      obtain ⟨ins, f1⟩ := p1
      simp only [h1] at h
      match h2 : filterLoop st tF tT vF vT limit (outStream st addr a) f1 with
      | none => simp [h2] at h
      | some p2 =>
        obtain ⟨outs, f2⟩ := p2
        simp only [h2, Option.some.injEq] at h
        subst h
        have hf1 := filterLoop_found st tF tT vF vT limit (inStream st addr a)
          0 ins f1 h1
        have hf2 := filterLoop_found st tF tT vF vT limit (outStream st addr a)
          f1 outs f2 h2
        have hb1 := filterLoop_bound st tF tT vF vT limit (inStream st addr a)
          0 ins f1 h1
        have hb2 := filterLoop_bound st tF tT vF vT limit (outStream st addr a)
          f1 outs f2 h2
        refine ⟨?_, ?_, ?_⟩
        · simp only [List.length_append]
          push_cast at hb1 hb2 ⊢
          omega
        · intro x hx
          rcases List.mem_append.1 hx with hx | hx
          · obtain ⟨v, hv, hrest⟩ := filterLoop_sound st tF tT vF vT limit
              (inStream st addr a) 0 ins f1 h1 x hx
            exact ⟨v, Or.inl hv, hrest⟩
          · obtain ⟨v, hv, hrest⟩ := filterLoop_sound st tF tT vF vT limit
              (outStream st addr a) f1 outs f2 h2 x hx
            exact ⟨v, Or.inr hv, hrest⟩
        · intro hcnt
          have hc1 : ((0 : Nat) : Int) +
              (((inStream st addr a).filter (passesFilter tF tT vF vT)).length : Int) ≤
                limit := by
            omega
          obtain ⟨hins, hsucc1⟩ := filterLoop_complete st tF tT vF vT limit
            (inStream st addr a) 0 ins f1 h1 hc1
          have hlen : ins.length =
              ((inStream st addr a).filter (passesFilter tF tT vF vT)).length := by
            rw [hins]
            exact filterMap_length_of_isSome _ _
              (fun v hv => hsucc1 v (List.mem_filter.1 hv).1 (List.mem_filter.1 hv).2)
          have hc2 : ((f1 : Nat) : Int) +
              (((outStream st addr a).filter (passesFilter tF tT vF vT)).length : Int) ≤
                limit := by
            omega
          obtain ⟨houts, _⟩ := filterLoop_complete st tF tT vF vT limit
            (outStream st addr a) f1 outs f2 h2 hc2
          rw [hins, houts]

/-- C8 witness: the amended theorem applied to the concrete self-transaction
store. -/
theorem c8_witness :
    (([c8atx, c8atx].length : Int) ≤ max 10 0 ∧
     (∀ x ∈ [c8atx, c8atx], ∃ v,
        (v ∈ inStream c8store (("0xa").data) c8rec ∨
         v ∈ outStream c8store (("0xa").data) c8rec) ∧
        passesFilter 0 200 0 10 v = true ∧ hydrateEntry c8store v = some x) ∧
     ((((inStream c8store (("0xa").data) c8rec).filter
          (passesFilter 0 200 0 10)).length : Int) +
        (((outStream c8store (("0xa").data) c8rec).filter
          (passesFilter 0 200 0 10)).length : Int) ≤ 10 →
      [c8atx, c8atx] =
        ((inStream c8store (("0xa").data) c8rec).filter
          (passesFilter 0 200 0 10)).filterMap (hydrateEntry c8store) ++
        ((outStream c8store (("0xa").data) c8rec).filter
          (passesFilter 0 200 0 10)).filterMap (hydrateEntry c8store))) :=
  c8_address_transactions.2 c8store (("0xa").data) 0 200 0 10 10 [c8atx, c8atx]
    (encode_address c8rec) c8rec (by decide) (by decide) (by decide)

/-- C9: a balance-phase commit overwrites only the balance field — for every
address whose record existed (as a well-formed encoded record), the write
batch contains the re-encoded record whose decoding agrees with the stored
record on every field except `balance`. -/
theorem c9_balance_frame :
    ∀ (store : Str → Option Str) (bals batch : List (Str × Str)) (a b : Str)
      (r : AddrRec),
      updateDbBalances store bals = some batch →
      (a, b) ∈ bals →
      store (("address-").data ++ a) = some (encode_address r) →
      WFaddrRec r → nul ∉ b →
      (("address-").data ++ a, encode_address { r with balance := b }) ∈ batch ∧
        decode_address (encode_address { r with balance := b }) =
          some { r with balance := b } :=
  fun store bals batch a b r h1 h2 h3 h4 h5 =>
    updateDbBalances_mem_frame store bals batch a b r h1 h2 h3 h4 h5

/-- C9 witness: the frame theorem applied to a concrete store and balance
list. -/
theorem c9_witness :
    (("address-").data ++ ("0xa").data,
      encode_address { c9rec with balance := ("42").data }) ∈ c9batch ∧
    decode_address (encode_address { c9rec with balance := ("42").data }) =
      some { c9rec with balance := ("42").data } :=
  c9_balance_frame c9store c9bals c9batch (("0xa").data) (("42").data) c9rec
    (by decide) (by decide) (by decide) (by unfold WFaddrRec; decide) (by decide)

/-- C10: the balance phase never creates an Address record — a resolved
balance for an address with no stored record is silently discarded, the
write batch contains only keys that already existed, and committing the
batch leaves absent keys absent. -/
theorem c10_no_new_records :
    (∀ (store : Str → Option Str) (bals batch : List (Str × Str)),
      updateDbBalances store bals = some batch →
      ∀ k v, (k, v) ∈ batch → (store k).isSome) ∧
    (∀ (store : Str → Option Str) (bals batch : List (Str × Str)) (k : Str),
      updateDbBalances store bals = some batch →
      store k = none → applyBatch store batch k = none) := by
  constructor
  · exact fun store bals batch h => updateDbBalances_keys_exist store bals batch h
  · intro store bals batch k h hnone
    rw [applyBatch_not_mem]
    · exact hnone
    · intro kv hkv hk
      have := updateDbBalances_keys_exist store bals batch h kv.1 kv.2
        (by rw [show kv = (kv.1, kv.2) from rfl] at hkv; exact hkv)
      rw [hk, hnone] at this
      exact absurd this (by simp)

/-- C10 witness: a balance list with one stored and one unknown address —
the batch covers only the stored one, and the unknown address stays absent
after the commit. -/
theorem c10_witness :
    (c10store (("address-").data ++ ("0xa").data)).isSome ∧
    applyBatch c10store c10batch (("address-").data ++ ("0xb").data) = none :=
  ⟨c10_no_new_records.1 c10store c10bals c10batch (by decide)
      (("address-").data ++ ("0xa").data)
      (encode_address { c10rec with balance := ("1").data }) (by decide),
   c10_no_new_records.2 c10store c10bals c10batch
      (("address-").data ++ ("0xb").data) (by decide) (by decide)⟩
